import Mathlib

/-!
Verification development for the grading/expectations engine of this repository
(`bin/grading.py`, `bin/expectations.py`, `bin/testgroups.py`).

Modelling conventions:
* A tree node (testcase or testgroup) is identified in the source by a
  '/'-separated path string, the root being '.'.  Here a node is the list of
  its path components, the root being `[]`.  `Path(node).parent` becomes
  `List.dropLast`, `Path(p).parents` becomes the strict prefixes of `p`.
* Python dicts of testdata settings (string keys, string values) become
  association lists with first-match lookup; `d1 | d2` becomes `dunion d1 d2`
  whose lookup prefers `d2`.
* Scores are Python numbers (float/int) in the source; every score handled by
  the claims is an integer, so scores are modelled as `Int`.  The score strings
  read from settings (`accept_score`, `reject_score`) are parsed by
  `parseScore`, the embedding of Python's `float()` on those integer literals.
* Python `sorted`/`list.sort` on sibling path strings orders siblings by their
  final component (all earlier components agree); `isortNodes` is that order.
* Exceptions (`ValueError`, `KeyError`) are modelled with `Except` or with an
  `Option String` error component; mutations already performed before a raise
  are kept, as in the source.
-/

abbrev Node := List String

/-- A grade, i.e. a pair of a verdict string and a score (`class Grade` of
`grading.py`; scores modelled as integers, see the header comment). -/
structure Grade where
  verdict : String
  score : Int
deriving DecidableEq, Repr

/-- Python dict with string keys and values, as an association list with
first-match lookup. -/
abbrev Dict := List (String × String)

def dget (d : Dict) (k : String) : Option String :=
  (d.find? (fun p => p.1 == k)).map Prod.snd

/-- Python `d1 | d2`: right side wins on common keys (the list order differs
from Python's insertion order, but lookups agree, which is all that is used). -/
def dunion (d1 d2 : Dict) : Dict := d2 ++ d1

/-- Key lookup that the source performs with `d[k]` on dicts that are known to
contain `k`; missing keys default to `""` here instead of raising `KeyError`
(every reachable call site has the key present). -/
def sget (d : Dict) (k : String) : String := (dget d k).getD ""

/-- Python `k in d` on a dict: key membership. -/
def dictHasKey (d : Dict) (k : String) : Bool := (dget d k).isSome

/-- Embedding of Python `float()` on the integer score strings the engine
reads from testdata settings (`'1'`, `'0'`, `'12'`, ...). -/
def parseScoreAux (acc : Int) : List Char → Int
  | [] => acc
  | c :: cs => parseScoreAux (acc * 10 + Int.ofNat (c.toNat - 48)) cs

def parseScore (s : String) : Int := parseScoreAux 0 s.toList

/-- Code-point comparison of strings (Python string `<`). -/
def charListLt : List Char → List Char → Bool
  | [], [] => false
  | [], _ :: _ => true
  | _ :: _, [] => false
  | c :: cs, d :: ds =>
    if c.toNat < d.toNat then true
    else if d.toNat < c.toNat then false
    else charListLt cs ds

def strLt (a b : String) : Bool := charListLt a.toList b.toList

/-- Lexicographic order on paths, componentwise by code points.  For siblings
(which agree on all but the final component) this is exactly Python's string
order on the '/'-joined path names used by `children[node].sort()`. -/
def nodeLe : Node → Node → Bool
  | [], _ => true
  | _ :: _, [] => false
  | x :: xs, y :: ys =>
    if strLt x y then true
    else if strLt y x then false
    else nodeLe xs ys

def insertLe (x : Node) : List Node → List Node
  | [] => [x]
  | y :: ys => if nodeLe x y then x :: y :: ys else y :: insertLe x ys

/-- Stable insertion sort by `nodeLe` (Python `list.sort`). -/
def isortNodes : List Node → List Node
  | [] => []
  | x :: xs => insertLe x (isortNodes xs)

/-- Python `needle in haystack` on strings: substring test.  The source tests
grader flags this way (`'always_accept' in grader_flags`). -/
def listInfixOf (n : List Char) : List Char → Bool
  | [] => n.isEmpty
  | c :: t => n.isPrefixOf (c :: t) || listInfixOf n t

def substrOf (n h : String) : Bool := listInfixOf n.toList h.toList

/-- First index of an element satisfying `p`
(`min((i for i, x in enumerate(l) if p x), default=None)`). -/
def firstIdxP (p : α → Bool) : List α → Option Nat
  | [] => none
  | x :: xs => if p x then some 0 else (firstIdxP p xs).map (· + 1)

namespace Grading

/-- The strict prefixes of a path (`Path(p).parents`, as component lists). -/
def strictPrefixesOf (p : Node) : List Node :=
  (List.range p.length).map (fun k => p.take k)

/-- `ancestors(paths)` of `grading.py`: the set of all ancestors of the given
paths. -/
def ancestorsOf (paths : List Node) : List Node :=
  (paths.flatMap strictPrefixesOf).dedup

/-- `TestDataTree` of `grading.py`: carries the constructor arguments; the
derived members (`leaves`, `nodes`, `children`, `settings`) are the functions
below. -/
structure TestDataTree where
  testcasepaths : List Node
  rawSettings : Node → Option Dict

/-- `self.leaves = set(testcasepaths)`. -/
def TestDataTree.leaves (t : TestDataTree) : List Node := t.testcasepaths.dedup

/-- The internal nodes: the keys of `self.children`, i.e. `ancestors(leaves)`. -/
def TestDataTree.internalNodes (t : TestDataTree) : List Node := ancestorsOf t.leaves

/-- `self.nodes = self.leaves | set(self.children.keys())`. -/
def TestDataTree.nodes (t : TestDataTree) : List Node :=
  (t.leaves ++ t.internalNodes).dedup

/-- `self.children[p]` after construction: every non-root node is appended to
`children[parent(node)]`, and each child list is sorted lexicographically. -/
def TestDataTree.children (t : TestDataTree) (p : Node) : List Node :=
  isortNodes (t.nodes.filter (fun n => !n.isEmpty && n.dropLast == p))

/-- The hard-coded defaults for the root's settings. -/
def defaults : Dict :=
  [("on_reject", "break"), ("grader_flags", ""), ("accept_score", "1"),
   ("reject_score", "0"), ("range", "-inf inf")]

/-- `self.settings[p]` for an internal node `p`: the source fills the dict in
BFS order, each node getting `settings[parent] | (settings.get(node) or {})`
starting from `defaults | (settings.get('.') or {})` at the root; since every
parent is resolved before its children, the stored value is this chain. -/
def TestDataTree.settingsAtAux (t : TestDataTree) : Nat → Node → Dict
  | 0, _ => dunion defaults ((t.rawSettings []).getD [])
  | fuel + 1, p =>
    if p = [] then dunion defaults ((t.rawSettings []).getD [])
    else dunion (t.settingsAtAux fuel p.dropLast) ((t.rawSettings p).getD [])

def TestDataTree.settingsAt (t : TestDataTree) (p : Node) : Dict :=
  t.settingsAtAux p.length p

/-- `TestDataTree.get_settings`: for a leaf, its parent's settings; the dict
access raises `KeyError` (here `none`) off the settings keys, which are the
root plus the internal nodes. -/
def TestDataTree.get_settings (t : TestDataTree) (node : Node) : Option Dict :=
  let target := if node ∈ t.leaves then node.dropLast else node
  if target = [] ∨ target ∈ t.internalNodes then some (t.settingsAt target) else none

/-- Modelled from the spec: the external default grader
(`support/default_grader.py`, invoked by `call_default_grader`, is not under
`src/`).  Verdict badness order per the spec is JE > RTE > TLE > WA > AC. -/
def badness (v : String) : Nat :=
  if v == "JE" then 4
  else if v == "RTE" then 3
  else if v == "TLE" then 2
  else if v == "WA" then 1
  else 0

def worseOf (a b : String) : String := if badness a < badness b then b else a

/-- Modelled from the spec: the flagless default policy returns the worst
verdict by badness. -/
def worstVerdict (gs : List Grade) : String :=
  gs.foldl (fun w g => worseOf w g.verdict) "AC"

/-- Modelled from the spec: the default scoring mode is `sum`. -/
def sumScores (gs : List Grade) : Int := gs.foldl (fun acc g => acc + g.score) 0

/-- Modelled from the spec: `call_default_grader` runs the external default
grader (`support/default_grader.py`, not under `src/`) on the given grades.
With no grader flags — the only configuration the claims exercise — its output
is the worst verdict by badness (JE > RTE > TLE > WA > AC) together with the
sum of the scores.  The flags argument is ignored by this model. -/
def default_grader (gs : List Grade) (_flags : String) : Grade :=
  { verdict := worstVerdict gs, score := sumScores gs }

/-- The `on_reject: break` truncation inside `aggregate`: keep only the prefix
of the grades up to and including the first rejection. -/
def truncateOnReject (settings : Dict) (grades : List Grade) : List Grade :=
  if sget settings "on_reject" == "break" then
    match firstIdxP (fun g => g.verdict != "AC") grades with
    | some i => grades.take (i + 1)
    | none => grades
  else grades

/-- `aggregate` of `grading.py`, parametrised by the external grader call. -/
def aggregate (grader : List Grade → String → Grade) (_path : Node)
    (grades : List Grade) (settings : Dict) : Grade :=
  if grades = [] then { verdict := "AC", score := 0 }
  else grader (truncateOnReject settings grades) (sget settings "grader_flags")

/-- The state of `Grades.grades`: initially `None` for every node. -/
abbrev GState := Node → Option Grade

def initGrades : GState := fun _ => none

/-- The context a `Grades` object closes over: its tree and the external
grader process. -/
structure GradingCtx where
  tree : TestDataTree
  grader : List Grade → String → Grade

def is_accepted (s : GState) (n : Node) : Bool :=
  match s n with
  | some g => g.verdict == "AC"
  | none => false

def is_rejected (s : GState) (n : Node) : Bool :=
  match s n with
  | some g => g.verdict != "AC"
  | none => false

/-- The outcome of running a (fully consumed) call of `set_grade` or
`_infer_grade_upwards`: the final grade map, the yielded `(node, grade)`
pairs, the internal nodes the walk visited (i.e. the `parent` values it
processed), and the raised exception if any.  Mutations performed before a
raise are kept, as in the source. -/
structure WalkResult where
  state : GState
  yields : List (Node × Grade)
  visited : List Node
  err : Option String

/-- `first_error_idx` in `Grades._infer_grade_upwards`:
`min((i for i, sib in enumerate(siblings) if self.is_rejected(sib)), default=len(siblings))`. -/
def firstErrorIdx (s : GState) (siblings : List Node) : Nat :=
  (firstIdxP (is_rejected s) siblings).getD siblings.length

/-- The readiness test of `Grades._infer_grade_upwards` at the node whose
children are inspected: every child graded, or `on_reject: break` with every
child before the first rejected one accepted. -/
def readyAt (c : GradingCtx) (s : GState) (parent : Node) : Bool :=
  let siblings := c.tree.children parent
  siblings.all (fun sib => (s sib).isSome)
    || (sget (c.tree.settingsAt parent) "on_reject" == "break"
        && (siblings.take (firstErrorIdx s siblings)).all (is_accepted s))

/-- The aggregation performed by `Grades._infer_grade_upwards` once ready:
collect the grades of the graded children in sorted order and call
`aggregate`. -/
def aggregatedAt (c : GradingCtx) (s : GState) (parent : Node) : Grade :=
  aggregate c.grader parent ((c.tree.children parent).filterMap s)
    (c.tree.settingsAt parent)

/-- `Grades._infer_grade_upwards`, by recursion on a fuel that is kept equal
to the length of the node's path (the walk steps to `parent`, whose path is
one component shorter). -/
def inferAux (c : GradingCtx) : Nat → GState → Node → WalkResult
  | 0, s, _ => ⟨s, [], [], none⟩
  | fuel + 1, s, node =>
    if node = [] then ⟨s, [], [], none⟩
    else
      let parent := node.dropLast
      if readyAt c s parent then
        let aggregated := aggregatedAt c s parent
        match s parent with
        | some g =>
          if g ≠ aggregated then
            ⟨s, [], [parent], some "grade already set to a different value"⟩
          else ⟨s, [], [parent], none⟩
        | none =>
          let s2 : GState := fun n => if n = parent then some aggregated else s n
          let r := inferAux c fuel s2 parent
          ⟨r.state, (parent, aggregated) :: r.yields, parent :: r.visited, r.err⟩
      else ⟨s, [], [parent], none⟩

def infer_grade_upwards (c : GradingCtx) (s : GState) (node : Node) : WalkResult :=
  inferAux c node.length s node

/-- The argument of `set_grade`: either a bare verdict string or a full grade. -/
inductive GradeSpec where
  | verdictOnly (v : String)
  | full (g : Grade)

/-- `Grades.set_grade` (and `__setitem__`, which consumes the iterator). -/
def set_grade (c : GradingCtx) (s : GState) (testcase : Node) (gs : GradeSpec) :
    WalkResult :=
  if testcase ∉ c.tree.leaves then
    ⟨s, [], [], some "KeyError: use __setitem__ only for testcases"⟩
  else if (s testcase).isSome then
    ⟨s, [], [], some "ValueError: grade was already set"⟩
  else
    let g := match gs with
      | .verdictOnly v =>
        let setts := (c.tree.get_settings testcase).getD []
        { verdict := v,
          score := parseScore (sget setts (if v == "AC" then "accept_score" else "reject_score")) }
      | .full g => g
    let s2 : GState := fun n => if n = testcase then some g else s n
    let r := infer_grade_upwards c s2 testcase
    ⟨r.state, (testcase, g) :: r.yields, r.visited, r.err⟩

end Grading

/-- Verdict sets (`Expectation.verdicts` in `grading.py`,
`_specified_verdicts` values in `expectations.py`). -/
abbrev VSet := Finset String

/-- The four expectable verdicts, the initial/default verdict set. -/
def allVerdicts : VSet := {"AC", "WA", "TLE", "RTE"}

/-- A declarative expectations value (the yaml-derived argument accepted by
`Grades._set_expectations` and by the `Expectations` constructor): a verdict
string, a list of verdicts, or a nested mapping with optional reserved keys
`verdict` and `score` plus sub-entries. -/
inductive ExpSpec where
  | verdictStr : String → ExpSpec
  | verdictList : List String → ExpSpec
  | table : Option (List String) → Option String → List (String × ExpSpec) → ExpSpec

namespace Grading

/-- `Grades.expectations` restricted to its verdict sets (the score ranges are
untouched by the operations the claims exercise). -/
abbrev EState := Node → VSet

def initExpectations : EState := fun _ => allVerdicts

def updE (e : EState) (k : Node) (v : VSet) : EState :=
  fun n => if n = k then v else e n

/-- The tail of `Grades._set_expectations`: intersect the node's verdict set
with the specified verdicts; an empty intersection raises. -/
def applyVerdictConstraint (e : EState) (v : Option (List String)) (node : Node) :
    Except String EState :=
  match v with
  | none => .ok e
  | some l =>
    let s := e node ∩ l.toFinset
    if s = ∅ then .error "Expectations cannot be the empty set"
    else .ok (updE e node s)

/-- `Grades._set_expectations`: recursively transfer the given expectations to
the testdata tree below `node` (sub-entries first, then this node's own
verdict constraint, as in the source).  `fuel` bounds the nesting depth of the
spec value. -/
def set_expectations (fuel : Nat) (e : EState) (spec : ExpSpec) (node : Node) :
    Except String EState :=
  match fuel with
  | 0 => .ok e
  | fuel + 1 =>
    match spec with
    | .verdictStr s => applyVerdictConstraint e (some [s]) node
    | .verdictList l => applyVerdictConstraint e (some l) node
    | .table v _sc kids => do
      let e2 ← kids.foldlM
        (fun acc kv => set_expectations fuel acc kv.2 (node ++ [kv.1])) e
      applyVerdictConstraint e2 v node

/-- `Grades._infer_expectations`, by recursion on a fuel that bounds the tree
depth below `node` (the source recursion is on the finite tree).  The flag
test `'accept_if_any_accepted' not in grader_flags or 'always_accept' not in
grader_flags` and the key-membership test
`'ignore_sample' in tree.get_settings(node)` are kept exactly as written in
the source; the per-child loop (force the child's verdict set, then recurse
into the child) is the fold below. -/
def infer_expectations (t : TestDataTree) (fuel : Nat) (e : EState) (node : Node) :
    EState :=
  match fuel with
  | 0 => e
  | fuel + 1 =>
    if node ∈ t.leaves then e
    else
      let stg := t.settingsAt node
      let gflags := sget stg "grader_flags"
      let inheritAccepted := decide (e node = ({"AC"} : VSet))
        && (!(substrOf "accept_if_any_accepted" gflags)
            || !(substrOf "always_accept" gflags))
      let force := inheritAccepted
        && !(decide (node = ([] : Node)) && dictHasKey stg "ignore_sample")
      (t.children node).foldl
        (fun acc child =>
          let acc2 := if force then updE acc child (acc child ∩ {"AC"}) else acc
          infer_expectations t fuel acc2 child) e

/-- The expectations part of `Grades.__init__`: start from all-verdicts
expectations and, when an expectations argument is given, run
`_set_expectations` from the root followed by `_infer_expectations` from the
root (`fuel` bounds the tree depth). -/
def grades_init_expectations (t : TestDataTree) (spec : Option ExpSpec) (fuel : Nat) :
    Except String EState :=
  match spec with
  | none => .ok initExpectations
  | some sp => do
    let e ← set_expectations fuel initExpectations sp []
    .ok (infer_expectations t fuel e [])

end Grading

namespace Expc

/-- A Python dict keyed by `Path` objects (`_specified_verdicts`,
`_specified_scores` of `expectations.py`), as an association list where later
inserts shadow earlier ones. -/
abbrev AMap (α : Type) := List (Node × α)

def alookup (m : AMap α) (k : Node) : Option α :=
  (m.find? (fun p => p.1 == k)).map (·.2)

def ainsert (m : AMap α) (k : Node) (v : α) : AMap α := (k, v) :: m

/-- The two maps populated by the `walk` closure of `Expectations.__init__`. -/
structure SpecMaps where
  verdicts : AMap VSet
  scores : AMap (Option String)

/-- The tail of the `walk` closure: record the specified verdicts and scores
for `path`; a `score` without a `verdict` raises.  The numeric validation of
`_check_scores` is not embedded (no claim supplies a score). -/
def walkStep (st : SpecMaps) (v : Option (List String)) (sc : Option String)
    (path : Node) : Except String SpecMaps :=
  match v with
  | none =>
    if sc.isSome then .error "score specified without verdict" else .ok st
  | some l =>
    .ok { verdicts := ainsert st.verdicts path l.toFinset,
          scores := ainsert st.scores path sc }

/-- The `walk` closure of `Expectations.__init__`: sub-entries first (with the
root-level key check), then this path's own `verdict`/`score` entry.  `fuel`
bounds the nesting depth of the spec value. -/
def walk (fuel : Nat) (st : SpecMaps) (sp : ExpSpec) (path : Node) :
    Except String SpecMaps :=
  match fuel with
  | 0 => .ok st
  | fuel + 1 =>
    match sp with
    | .verdictStr s => walkStep st (some [s]) none path
    | .verdictList l => walkStep st (some l) none path
    | .table v sc kids => do
      let st2 ← kids.foldlM
        (fun acc kv =>
          if path = ([] : Node) ∧ kv.1 ∉ (["sample", "secret"] : List String) then
            Except.error "Expected testgroup sample or secret"
          else walk fuel acc kv.2 (path ++ [kv.1])) st
      walkStep st2 v sc path

/-- `dirnamemap` of `Expectations.__init__`. -/
def dirnamemap (d : String) : Option String :=
  if d == "accepted" then some "AC"
  else if d == "wrong_answer" then some "WA"
  else if d == "time_limit_exceeded" then some "TLE"
  else if d == "run_time_error" then some "RTE"
  else none

/-- `domjudge_verdict_map` of `Expectations.__init__`. -/
def domjudge_verdict_map (v : String) : Option String :=
  if v == "CORRECT" then some "AC"
  else if v == "WRONG-ANSWER" then some "WA"
  else if v == "TIMELIMIT" then some "TLE"
  else if v == "RUN-ERROR" then some "RTE"
  else none

/-- The final block of `Expectations.__init__` (lines 149-184): derive the
root verdict sets implied by `dirname` and `expected_results`, raise when
`expected_results` is given inside a recognized directory, and reconcile each
with the declaratively specified root set (Python's `if yaml_verdict:` is
false both for a missing and for an empty set). -/
def reconcileRoot (m : AMap VSet) (expected_results : Option (List String))
    (dirname : Option String) : Except String (AMap VSet) := do
  let dirnameVerdict : Option VSet :=
    match dirname with
    | none => none
    | some d => (dirnamemap d).map (fun v => {v})
  let expectedShort : Option VSet ←
    match expected_results with
    | none => pure none
    | some [] => pure none
    | some (v0 :: rest) =>
      if dirnameVerdict.isSome then
        Except.error "Don't set EXPECTED_RESULTS in directory"
      else if (v0 :: rest).all (fun v => (domjudge_verdict_map v).isSome) then
        pure (some ((v0 :: rest).filterMap domjudge_verdict_map).toFinset)
      else Except.error "Invalid expected results"
  let step : AMap VSet → Option VSet → Except String (AMap VSet) := fun m rv =>
    match rv with
    | none => .ok m
    | some v =>
      match alookup m [] with
      | some yv =>
        if yv ≠ ∅ then
          (if yv ≠ v then .error "Contradictory expectations for root" else .ok m)
        else .ok (ainsert m [] v)
      | none => .ok (ainsert m [] v)
  let m2 ← step m dirnameVerdict
  step m2 expectedShort

/-- The state of a constructed `Expectations` object. -/
structure ExpectationsState where
  maps : SpecMaps
  tdSettings : Node → Option Dict

/-- `Expectations.__init__`. -/
def expectationsInit (fuel : Nat) (expectations : Option ExpSpec)
    (expected_results : Option (List String)) (dirname : Option String)
    (td : Node → Option Dict) : Except String ExpectationsState := do
  let st0 : SpecMaps := ⟨[], []⟩
  let st1 ← match expectations with
    | none => pure st0
    | some sp => walk fuel st0 sp []
  let v2 ← reconcileRoot st1.verdicts expected_results dirname
  .ok ⟨⟨v2, st1.scores⟩, td⟩

/-- The defaults of `Expectations.testdata_settings` ("defaults according to
specification" in the source: only `grader_flags` and `range`). -/
def expDefaults : Dict := [("grader_flags", ""), ("range", "-inf inf")]

/-- `Expectations.testdata_settings`: the parent's settings (defaults at the
root) overridden by this path's own raw entry. -/
def testdata_settingsAux (td : Node → Option Dict) : Nat → Node → Dict
  | 0, _ => dunion expDefaults ((td []).getD [])
  | fuel + 1, p =>
    if p = [] then dunion expDefaults ((td []).getD [])
    else dunion (testdata_settingsAux td fuel p.dropLast) ((td p).getD [])

def testdata_settings (td : Node → Option Dict) (p : Node) : Dict :=
  testdata_settingsAux td p.length p

/-- `self._specified_verdicts.get(path) or set(["AC","WA","TLE","RTE"])`
(an empty specified set is falsy and falls back to the default, like a
missing one). -/
def specifiedOrDefaultVerdicts (st : ExpectationsState) (path : Node) : VSet :=
  match alookup st.maps.verdicts path with
  | some v => if v ≠ ∅ then v else allVerdicts
  | none => allVerdicts

/-- The verdict component of `Expectations.__getitem__`: the specified (or
default) set, overridden to `{AC}` when the parent resolves to exactly `{AC}`
and no suppressing grader flag is in scope; a node whose own set lacks `AC`
then raises.  Recursion is on the path length (`fuel`). -/
def verdictsAtAux (st : ExpectationsState) : Nat → Node → Except String VSet
  | 0, path => .ok (specifiedOrDefaultVerdicts st path)
  | fuel + 1, path =>
    let verdicts := specifiedOrDefaultVerdicts st path
    if path = [] then .ok verdicts
    else do
      let gf := sget (testdata_settings st.tdSettings path.dropLast) "grader_flags"
      let pv ← verdictsAtAux st fuel path.dropLast
      if decide (pv = ({"AC"} : VSet))
          && !(substrOf "accept_if_any_accepted" gf)
          && !(substrOf "always_accept" gf)
          && !(decide (path = (["sample"] : Node)) && substrOf "ignore_sample" gf) then
        if "AC" ∉ verdicts then .error "Conflicting expectations"
        else .ok ({"AC"} : VSet)
      else .ok verdicts

/-- `Expectations.verdicts(node)`. -/
def verdictsQ (st : ExpectationsState) (path : Node) : Except String VSet :=
  verdictsAtAux st path.length path

end Expc

namespace TG

/-- `short_verdict` of `testgroups.py` (total, `""` standing for the
`KeyError` raised off the five long verdicts, which no call site reaches). -/
def short_verdict (v : String) : String :=
  if v == "ACCEPTED" then "AC"
  else if v == "WRONG_ANSWER" then "WA"
  else if v == "JUDGE_ERROR" then "JE"
  else if v == "TIME_LIMIT_EXCEEDED" then "TLE"
  else if v == "RUN_TIME_ERROR" then "RTE"
  else ""

/-- `long_verdict` of `testgroups.py`. -/
def long_verdict (v : String) : String :=
  if v == "AC" then "ACCEPTED"
  else if v == "WA" then "WRONG_ANSWER"
  else if v == "JE" then "JUDGE_ERROR"
  else if v == "TLE" then "TIME_LIMIT_EXCEEDED"
  else if v == "RTE" then "RUN_TIME_ERROR"
  else ""

/-- `TestDataTree` of `testgroups.py`: the same construction as in
`grading.py` (leaves from the given paths, children keyed by parent) except
that the child lists are not sorted; Python leaves their order (set-iteration
order) unspecified, and this embedding fixes the lexicographic one. -/
def children (tcpaths : List Node) (p : Node) : List Node :=
  isortNodes
    (((tcpaths.dedup ++ Grading.ancestorsOf tcpaths.dedup).dedup).filter
      (fun n => !n.isEmpty && n.dropLast == p))

/-- The leaf grades of `Grades.__init__` of `testgroups.py`: the verdict from
the `ExecResult`, with score `int(verdict == 'ACCEPTED')`. -/
def leafGrades (verdicts : Node → String) : Node → Grade :=
  fun tc => { verdict := verdicts tc, score := if verdicts tc == "ACCEPTED" then 1 else 0 }

/-- `call_default_grader` of `testgroups.py`: translate long verdicts to
short, run the external default grader (modelled, see
`Grading.default_grader`) with no flags, translate back. -/
def call_default_grader (grades : List Grade) : Grade :=
  let r := Grading.default_grader
    (grades.map (fun g => { verdict := short_verdict g.verdict, score := g.score })) ""
  { verdict := long_verdict r.verdict, score := r.score }

/-- `aggregate` of `testgroups.py`. -/
def aggregate (_path : Node) (grades : List Grade) : Grade :=
  if grades = [] then { verdict := "ACCEPTED", score := 0 }
  else call_default_grader grades

/-- `Grades._grade_recursively` of `testgroups.py` (`fuel` bounds the tree
depth below `node`; the memoization of the source does not affect the
computed values on a tree). -/
def grade_recursively (tcpaths : List Node) (res : Node → Grade) :
    Nat → Node → Grade
  | 0, _ => { verdict := "", score := 0 }
  | fuel + 1, node =>
    if node ∈ tcpaths.dedup then res node
    else aggregate node ((children tcpaths node).map (grade_recursively tcpaths res fuel))

/-- `Grades.verdict` of `testgroups.py`: the verdict of the root's grade. -/
def rootVerdict (tcpaths : List Node) (verdicts : Node → String) (fuel : Nat) : String :=
  (grade_recursively tcpaths (leafGrades verdicts) fuel []).verdict

end TG



section ListLemmas

variable {α : Type} {β : Type}

theorem firstIdxP_cons (p : α → Bool) (x : α) (xs : List α) :
    firstIdxP p (x :: xs) = if p x then some 0 else (firstIdxP p xs).map (· + 1) := rfl

theorem firstIdxP_eq_none_iff {p : α → Bool} {l : List α} :
    firstIdxP p l = none ↔ ∀ x ∈ l, p x = false := by
  induction l with
  | nil => simp [firstIdxP]
  | cons x xs ih =>
    rw [firstIdxP_cons]
    by_cases hx : p x
    · simp [hx]
    · rw [if_neg hx]
      cases hfi : firstIdxP p xs with
      | some j =>
        constructor
        · intro h; exact absurd h (Option.some_ne_none _)
        · intro h
          have hn : firstIdxP p xs = none := ih.mpr fun y hy => h y (List.mem_cons_of_mem _ hy)
          rw [hn] at hfi; exact Option.noConfusion hfi
      | none =>
        constructor
        · intro _ y hy
          rcases List.mem_cons.mp hy with rfl | hy'
          · exact Bool.eq_false_iff.mpr hx
          · exact ih.mp hfi y hy'
        · intro _; rfl

theorem firstIdxP_eq_some {p : α → Bool} {l : List α} {i : Nat}
    (h : firstIdxP p l = some i) :
    ∃ A x B, l = A ++ x :: B ∧ A.length = i ∧ (∀ a ∈ A, p a = false) ∧ p x = true := by
  induction l generalizing i with
  | nil => simp [firstIdxP] at h
  | cons y ys ih =>
    rw [firstIdxP_cons] at h
    by_cases hy : p y
    · rw [if_pos hy] at h
      have hi : i = 0 := by cases h; rfl
      exact ⟨[], y, ys, rfl, by simp [hi], by simp, hy⟩
    · rw [if_neg hy] at h
      cases hfi : firstIdxP p ys with
      | none => rw [hfi] at h; exact Option.noConfusion h
      | some j =>
        rw [hfi] at h
        have hji : j + 1 = i := Option.some.inj h
        obtain ⟨A, x, B, rfl, hlen, hA, hx⟩ := ih hfi
        refine ⟨y :: A, x, B, rfl, by simp [hlen, hji], ?_, hx⟩
        intro a ha
        rcases List.mem_cons.mp ha with rfl | ha'
        · exact Bool.eq_false_iff.mpr hy
        · exact hA a ha'

theorem firstIdxP_append_cons (p : α → Bool) (A : List α) (x : α) (B : List α)
    (hA : ∀ a ∈ A, p a = false) (hx : p x = true) :
    firstIdxP p (A ++ x :: B) = some A.length := by
  induction A with
  | nil => simp [firstIdxP_cons, hx]
  | cons a as ih =>
    have ha : p a = false := hA a (List.mem_cons_self a as)
    rw [List.cons_append, firstIdxP_cons, if_neg (by simp [ha]),
      ih fun b hb => hA b (List.mem_cons_of_mem _ hb)]
    rfl

theorem take_length_succ_append (A : List α) (x : α) (B : List α) :
    (A ++ x :: B).take (A.length + 1) = A ++ [x] := by
  induction A with
  | nil => simp
  | cons a as ih => simpa using ih

theorem filterMap_eq_map_of_some {f : α → Option β} {g : α → β} {l : List α}
    (h : ∀ a ∈ l, f a = some (g a)) : l.filterMap f = l.map g := by
  induction l with
  | nil => simp
  | cons a as ih =>
    rw [List.filterMap_cons, h a (List.mem_cons_self a as), List.map_cons,
      ih fun b hb => h b (List.mem_cons_of_mem _ hb)]

theorem mem_insertLe {x y : Node} {l : List Node} :
    y ∈ insertLe x l ↔ y = x ∨ y ∈ l := by
  induction l with
  | nil => simp [insertLe]
  | cons z zs ih =>
    by_cases h : nodeLe x z
    · simp [insertLe, h]
    · simp only [insertLe, h, Bool.false_eq_true, if_false, List.mem_cons, ih]
      tauto

theorem mem_take_mono {l : List α} {m n : Nat} {x : α} (hmn : m ≤ n)
    (h : x ∈ l.take m) : x ∈ l.take n := by
  have he : l.take m = (l.take n).take m := by
    rw [List.take_take, Nat.min_eq_left hmn]
  rw [he] at h
  exact List.mem_of_mem_take h

theorem mem_isortNodes {y : Node} {l : List Node} :
    y ∈ isortNodes l ↔ y ∈ l := by
  induction l with
  | nil => simp [isortNodes]
  | cons z zs ih => simp [isortNodes, mem_insertLe, ih]

end ListLemmas

namespace Grading

theorem inferAux_succ (c : GradingCtx) (fuel : Nat) (s : GState) (node : Node) :
    inferAux c (fuel + 1) s node =
      if node = [] then ⟨s, [], [], none⟩
      else if readyAt c s node.dropLast then
        match s node.dropLast with
        | some g =>
          if g ≠ aggregatedAt c s node.dropLast then
            ⟨s, [], [node.dropLast], some "grade already set to a different value"⟩
          else ⟨s, [], [node.dropLast], none⟩
        | none =>
          let s2 : GState := fun n =>
            if n = node.dropLast then some (aggregatedAt c s node.dropLast) else s n
          let r := inferAux c fuel s2 node.dropLast
          ⟨r.state, (node.dropLast, aggregatedAt c s node.dropLast) :: r.yields,
            node.dropLast :: r.visited, r.err⟩
      else ⟨s, [], [node.dropLast], none⟩ := rfl

theorem infer_grade_upwards_ne_nil (c : GradingCtx) (s : GState) (a : String)
    (as : List String) :
    infer_grade_upwards c s (a :: as) = inferAux c (as.length + 1) s (a :: as) := rfl

theorem infer_notReady (c : GradingCtx) (s : GState) (node : Node)
    (h0 : node ≠ []) (h : readyAt c s node.dropLast = false) :
    infer_grade_upwards c s node = ⟨s, [], [node.dropLast], none⟩ := by
  cases node with
  | nil => exact absurd rfl h0
  | cons a as =>
    rw [infer_grade_upwards_ne_nil, inferAux_succ, if_neg (by simp), if_neg (by simp [h])]

theorem infer_readyStored (c : GradingCtx) (s : GState) (node : Node) (g : Grade)
    (h0 : node ≠ []) (h : readyAt c s node.dropLast = true)
    (hs : s node.dropLast = some g) (heq : g = aggregatedAt c s node.dropLast) :
    infer_grade_upwards c s node = ⟨s, [], [node.dropLast], none⟩ := by
  cases node with
  | nil => exact absurd rfl h0
  | cons a as =>
    rw [infer_grade_upwards_ne_nil, inferAux_succ, if_neg (by simp), if_pos h]
    simp only [hs]
    rw [if_neg (fun hne => hne heq)]

theorem inferAux_preserves (c : GradingCtx) :
    ∀ (fuel : Nat) (s : GState) (m n : Node) (g : Grade),
      s n = some g → (inferAux c fuel s m).state n = some g := by
  intro fuel
  induction fuel with
  | zero => intro s m n g h; exact h
  | succ fuel ih =>
    intro s m n g h
    rw [inferAux_succ]
    by_cases hm : m = []
    · simp only [if_pos hm]; exact h
    · rw [if_neg hm]
      by_cases hready : readyAt c s m.dropLast
      · rw [if_pos hready]
        cases hsp : s m.dropLast with
        | some g0 =>
          dsimp only
          by_cases hne : g0 ≠ aggregatedAt c s m.dropLast
          · rw [if_pos hne]; exact h
          · rw [if_neg hne]; exact h
        | none =>
          have hn : n ≠ m.dropLast := by
            intro hnm; rw [hnm, hsp] at h; exact Option.noConfusion h
          dsimp only
          exact ih _ _ _ _ (by simp only [if_neg hn]; exact h)
      · rw [if_neg hready]; exact h

theorem inferAux_changes (c : GradingCtx) :
    ∀ (fuel : Nat) (s : GState) (m n : Node),
      (inferAux c fuel s m).state n ≠ s n → n <+: m ∧ n ≠ m := by
  intro fuel
  induction fuel with
  | zero => intro s m n h; exact absurd rfl h
  | succ fuel ih =>
    intro s m n h
    rw [inferAux_succ] at h
    by_cases hm : m = []
    · rw [if_pos hm] at h; exact absurd rfl h
    · rw [if_neg hm] at h
      have hdp : m.dropLast <+: m := List.dropLast_prefix m
      have hdl : m.dropLast.length < m.length := by
        have : m.length ≠ 0 := by
          simpa using fun hl => hm (List.eq_nil_of_length_eq_zero hl)
        simp only [List.length_dropLast]; omega
      by_cases hready : readyAt c s m.dropLast
      · rw [if_pos hready] at h
        cases hsp : s m.dropLast with
        | some g0 =>
          rw [hsp] at h
          dsimp only at h
          by_cases hne : g0 ≠ aggregatedAt c s m.dropLast
          · simp only [if_pos hne] at h; exact absurd rfl h
          · simp only [if_neg hne] at h; exact absurd rfl h
        | none =>
          rw [hsp] at h
          dsimp only at h
          set s2 : GState := fun x =>
            if x = m.dropLast then some (aggregatedAt c s m.dropLast) else s x with hs2
          by_cases hrec : (inferAux c fuel s2 m.dropLast).state n ≠ s2 n
          · obtain ⟨hpre, hne⟩ := ih s2 m.dropLast n hrec
            have hlen := hpre.length_le
            refine ⟨hpre.trans hdp, ?_⟩
            intro hnm
            subst hnm
            omega
          · push_neg at hrec
            rw [hrec] at h
            have hn : n = m.dropLast := by
              by_contra hnn
              rw [hs2] at h
              simp only [if_neg hnn] at h
              exact h rfl
            subst hn
            refine ⟨hdp, ?_⟩
            intro hnm
            rw [hnm] at hdl
            omega
      · rw [if_neg hready] at h; exact absurd rfl h

end Grading

namespace Grading

theorem mem_strictPrefixesOf {p a : Node} :
    a ∈ strictPrefixesOf p ↔ ∃ k, k < p.length ∧ a = p.take k := by
  simp only [strictPrefixesOf, List.mem_map, List.mem_range]
  constructor
  · rintro ⟨k, hk, rfl⟩; exact ⟨k, hk, rfl⟩
  · rintro ⟨k, hk, rfl⟩; exact ⟨k, hk, rfl⟩

theorem mem_ancestorsOf {paths : List Node} {a : Node} :
    a ∈ ancestorsOf paths ↔ ∃ p ∈ paths, a <+: p ∧ a ≠ p := by
  simp only [ancestorsOf, List.mem_dedup, List.mem_flatMap]
  constructor
  · rintro ⟨p, hp, hmem⟩
    obtain ⟨k, hk, rfl⟩ := mem_strictPrefixesOf.mp hmem
    refine ⟨p, hp, List.take_prefix k p, ?_⟩
    intro he
    have : (p.take k).length = p.length := by rw [he]
    rw [List.length_take] at this
    omega
  · rintro ⟨p, hp, hpre, hne⟩
    refine ⟨p, hp, mem_strictPrefixesOf.mpr ⟨a.length, ?_, ?_⟩⟩
    · rcases Nat.lt_or_ge a.length p.length with h | h
      · exact h
      · exact absurd (List.IsPrefix.eq_of_length_le hpre h) hne
    · exact (List.prefix_iff_eq_take.mp hpre)

theorem mem_nodes_iff {t : TestDataTree} {n : Node} :
    n ∈ t.nodes ↔ n ∈ t.leaves ∨ n ∈ t.internalNodes := by
  simp [TestDataTree.nodes, List.mem_dedup, List.mem_append]

theorem mem_children_iff {t : TestDataTree} {p n : Node} :
    n ∈ t.children p ↔ n ∈ t.nodes ∧ n ≠ [] ∧ n.dropLast = p := by
  simp only [TestDataTree.children, mem_isortNodes, List.mem_filter,
    Bool.and_eq_true, Bool.not_eq_true', beq_iff_eq]
  constructor
  · rintro ⟨hn, hne, hdl⟩
    refine ⟨hn, ?_, hdl⟩
    intro he
    rw [he] at hne
    exact absurd hne (by simp)
  · rintro ⟨hn, hne, hdl⟩
    refine ⟨hn, ?_, hdl⟩
    cases n with
    | nil => exact absurd rfl hne
    | cons a as => rfl

/-- The prefixes of a path from the root down to the path itself. -/
def prefixesThrough (p : Node) : List Node :=
  (List.range (p.length + 1)).map (fun k => p.take k)

/-- The settings resolver as §4.1 of the spec words it: the given defaults,
then the overrides layer by layer along the path from the root down to the
path's parent, and finally the path's own override, each layer overwriting
only the keys it specifies. -/
def specResolve (dfl : Dict) (ov : Node → Option Dict) (p : Node) : Dict :=
  (prefixesThrough p).foldl (fun acc q => dunion acc ((ov q).getD [])) dfl

theorem prefixesThrough_nil : prefixesThrough [] = [[]] := rfl

theorem prefixesThrough_ne_nil {p : Node} (h : p ≠ []) :
    prefixesThrough p = prefixesThrough p.dropLast ++ [p] := by
  have hlen : p.length = p.dropLast.length + 1 := by
    have : p.length ≠ 0 := by
      simpa using fun hl => h (List.eq_nil_of_length_eq_zero hl)
    simp only [List.length_dropLast]
    omega
  unfold prefixesThrough
  rw [hlen, List.range_succ, List.map_append]
  congr 1
  · apply List.map_congr_left
    intro k hk
    rw [List.mem_range] at hk
    rw [List.dropLast_eq_take, List.take_take]
    congr 1
    omega
  · simp only [List.map_cons, List.map_nil]
    congr 1
    rw [← hlen]
    exact List.take_length p

theorem specResolve_nil (dfl : Dict) (ov : Node → Option Dict) :
    specResolve dfl ov [] = dunion dfl ((ov []).getD []) := rfl

theorem specResolve_ne_nil (dfl : Dict) (ov : Node → Option Dict) {p : Node}
    (h : p ≠ []) :
    specResolve dfl ov p = dunion (specResolve dfl ov p.dropLast) ((ov p).getD []) := by
  unfold specResolve
  rw [prefixesThrough_ne_nil h, List.foldl_append]
  rfl

theorem settingsAtAux_eq (t : TestDataTree) :
    ∀ (fuel : Nat) (p : Node), fuel = p.length →
      t.settingsAtAux fuel p = specResolve defaults t.rawSettings p := by
  intro fuel
  induction fuel with
  | zero =>
    intro p hp
    have : p = [] := List.eq_nil_of_length_eq_zero hp.symm
    subst this
    rfl
  | succ fuel ih =>
    intro p hp
    have hne : p ≠ [] := by
      intro he; subst he; simp at hp
    rw [TestDataTree.settingsAtAux, if_neg hne, specResolve_ne_nil _ _ hne,
      ih p.dropLast (by simp only [List.length_dropLast]; omega)]

theorem settingsAt_eq_specResolve (t : TestDataTree) (p : Node) :
    t.settingsAt p = specResolve defaults t.rawSettings p :=
  settingsAtAux_eq t p.length p rfl

end Grading

namespace Expc

theorem testdata_settingsAux_eq (td : Node → Option Dict) :
    ∀ (fuel : Nat) (p : Node), fuel = p.length →
      testdata_settingsAux td fuel p = Grading.specResolve expDefaults td p := by
  intro fuel
  induction fuel with
  | zero =>
    intro p hp
    have : p = [] := List.eq_nil_of_length_eq_zero hp.symm
    subst this
    rfl
  | succ fuel ih =>
    intro p hp
    have hne : p ≠ [] := by
      intro he; subst he; simp at hp
    rw [testdata_settingsAux, if_neg hne, Grading.specResolve_ne_nil _ _ hne,
      ih p.dropLast (by simp only [List.length_dropLast]; omega)]

theorem testdata_settings_eq_specResolve (td : Node → Option Dict) (p : Node) :
    testdata_settings td p = Grading.specResolve expDefaults td p :=
  testdata_settingsAux_eq td p.length p rfl

end Expc

namespace Fixtures

/-- A tree with the single testcase `a`. -/
def treeA : Grading.TestDataTree := ⟨[["a"]], fun _ => none⟩

def ctxA : Grading.GradingCtx := ⟨treeA, Grading.default_grader⟩

/-- The state after assigning `a := (AC, 1)`. -/
def runA1 : Grading.WalkResult :=
  Grading.set_grade ctxA Grading.initGrades ["a"] (.full ⟨"AC", 1⟩)

/-- Re-assigning the identical grade to `a`. -/
def runA2 : Grading.WalkResult :=
  Grading.set_grade ctxA runA1.state ["a"] (.full ⟨"AC", 1⟩)

/-- A tree with the testcases `g/a` and `g/b`. -/
def treeGAB : Grading.TestDataTree := ⟨[["g", "a"], ["g", "b"]], fun _ => none⟩

def ctxGAB : Grading.GradingCtx := ⟨treeGAB, Grading.default_grader⟩

/-- Assign `g/a := (AC, 1)` (sibling `g/b` still ungraded). -/
def runGA : Grading.WalkResult :=
  Grading.set_grade ctxGAB Grading.initGrades ["g", "a"] (.full ⟨"AC", 1⟩)

/-- A tree whose root has the four testcases `a`, `b`, `c`, `d` as children,
with default settings (`on_reject: break`). -/
def treeABCD : Grading.TestDataTree := ⟨[["a"], ["b"], ["c"], ["d"]], fun _ => none⟩

def ctxABCD : Grading.GradingCtx := ⟨treeABCD, Grading.default_grader⟩

/-- Grade `b := WA`. -/
def runB : Grading.WalkResult :=
  Grading.set_grade ctxABCD Grading.initGrades ["b"] (.verdictOnly "WA")

/-- ... then `c := AC`. -/
def runBC : Grading.WalkResult :=
  Grading.set_grade ctxABCD runB.state ["c"] (.verdictOnly "AC")

/-- ... then `a := AC` (making the root gradeable with `d` still ungraded). -/
def runBCA : Grading.WalkResult :=
  Grading.set_grade ctxABCD runBC.state ["a"] (.verdictOnly "AC")

/-- A tree in which the short case name `1` occurs under the two groups
`sample` and `secret`. -/
def treeTwo1 : Grading.TestDataTree := ⟨[["sample", "1"], ["secret", "1"]], fun _ => none⟩

def ctxTwo1 : Grading.GradingCtx := ⟨treeTwo1, Grading.default_grader⟩

/-- Assign `sample/1 := (AC, 1)`. -/
def runTwo1 : Grading.WalkResult :=
  Grading.set_grade ctxTwo1 Grading.initGrades ["sample", "1"] (.full ⟨"AC", 1⟩)

end Fixtures

/-- C9: aggregating an empty list of child grades yields ('AC', 0) in
`grading.aggregate` for every path, settings map and external grader, and
('ACCEPTED', 0) — the long form of 'AC' — in `testgroups.aggregate`. -/
theorem claim_C9 (grader : List Grade → String → Grade) (path : Node)
    (settings : Dict) :
    Grading.aggregate grader path [] settings = ⟨"AC", 0⟩ ∧
    TG.aggregate path [] = ⟨"ACCEPTED", 0⟩ ∧
    TG.short_verdict "ACCEPTED" = "AC" :=
  ⟨rfl, rfl, rfl⟩

/-- C3, counterexample: re-assigning the already-graded case `a` to the
identical grade `(AC, 1)` does not succeed as a no-op — `set_grade` raises
(`ValueError`), contrary to the claim. -/
theorem claim_C3_counterexample :
    Fixtures.runA1.state ["a"] = some ⟨"AC", 1⟩ ∧
    Fixtures.runA2.err = some "ValueError: grade was already set" := by
  constructor <;> rfl

/-- C3, amended: assigning ANY grade (identical or different) to an
already-graded known leaf fails with the already-set error and leaves every
stored grade (indeed the whole grade map) unchanged. -/
theorem claim_C3_amended (c : Grading.GradingCtx) (s : Grading.GState)
    (tc : Node) (gs : Grading.GradeSpec) (g0 : Grade)
    (h1 : tc ∈ c.tree.leaves) (h2 : s tc = some g0) :
    Grading.set_grade c s tc gs =
      ⟨s, [], [], some "ValueError: grade was already set"⟩ := by
  unfold Grading.set_grade
  rw [if_neg (by simp [h1]), if_pos (by simp [h2])]

theorem claim_C3_witness :
    (["a"] : Node) ∈ Fixtures.ctxA.tree.leaves ∧
    Fixtures.runA1.state ["a"] = some ⟨"AC", 1⟩ ∧
    Grading.set_grade Fixtures.ctxA Fixtures.runA1.state ["a"] (.full ⟨"WA", 0⟩) =
      ⟨Fixtures.runA1.state, [], [], some "ValueError: grade was already set"⟩ :=
  ⟨by decide, by decide,
    claim_C3_amended Fixtures.ctxA Fixtures.runA1.state ["a"] (.full ⟨"WA", 0⟩)
      ⟨"AC", 1⟩ (by decide) (by decide)⟩

/-- C6, counterexample: `sample/1` and `secret/1` both name the short case
`1`, yet they are distinct nodes with independent grades — assigning
`sample/1` grades the `sample` chain but leaves `secret/1` and `secret`
ungraded, so the hierarchy does not treat the case as a single entity with a
single grade propagated along every parent chain. -/
theorem claim_C6_counterexample :
    Fixtures.runTwo1.state ["sample", "1"] = some ⟨"AC", 1⟩ ∧
    Fixtures.runTwo1.state ["sample"] = some ⟨"AC", 1⟩ ∧
    Fixtures.runTwo1.state ["secret", "1"] = none ∧
    Fixtures.runTwo1.state ["secret"] = none ∧
    Fixtures.runTwo1.err = none := by
  refine ⟨?_, ?_, ?_, ?_, ?_⟩ <;> rfl

/-- C6, amended: the hierarchy is a tree keyed by full paths, not a DAG of
shared cases: every node in any child list is a non-root path whose unique
parent is its `dropLast`, so a case path has exactly one parent group and
grade assignment propagates along that single chain only (two paths sharing a
short case name are independent nodes, as the concrete run shows). -/
theorem claim_C6_amended :
    (∀ (t : Grading.TestDataTree) (p n : Node),
        n ∈ t.children p → n ≠ [] ∧ n.dropLast = p) ∧
    Fixtures.runTwo1.state ["sample", "1"] = some ⟨"AC", 1⟩ ∧
    Fixtures.runTwo1.state ["secret", "1"] = none := by
  refine ⟨?_, rfl, rfl⟩
  intro t p n hn
  exact (Grading.mem_children_iff.mp hn).2

theorem claim_C6_witness :
    (["g", "a"] : Node) ∈ Fixtures.treeGAB.children ["g"] ∧
    ((["g", "a"] : Node) ≠ [] ∧ (["g", "a"] : Node).dropLast = ["g"]) :=
  ⟨by decide, (claim_C6_amended.1 Fixtures.treeGAB ["g"] ["g", "a"] (by decide))⟩

/-- C4, counterexample: after freshly grading `g/a` (sibling `g/b` ungraded,
so the parent `g` is not ready), the upward walk visits only `g` and never
reaches the root, although the root is an ancestor of `g/a` — the walk does
not visit every ancestor up to and including the root. -/
theorem claim_C4_counterexample :
    Fixtures.runGA.visited = [["g"]] ∧
    ([] : Node) ∈ Grading.ancestorsOf Fixtures.treeGAB.leaves ∧
    ([] : Node) ∉ Fixtures.runGA.visited ∧
    Fixtures.runGA.err = none := by
  refine ⟨rfl, by decide, by decide, rfl⟩

/-- C4, amended: the upward walk STOPS at the first problematic level instead
of proceeding to the root: at a node whose parent is not ready it returns at
once (no aggregation, no yield, no further visit, state unchanged), and at a
node whose parent's already-stored grade equals the re-derived aggregate it
likewise returns at once without re-yielding and without continuing to the
parent. -/
theorem claim_C4_amended :
    (∀ (c : Grading.GradingCtx) (s : Grading.GState) (node : Node),
        node ≠ [] → Grading.readyAt c s node.dropLast = false →
        Grading.infer_grade_upwards c s node = ⟨s, [], [node.dropLast], none⟩) ∧
    (∀ (c : Grading.GradingCtx) (s : Grading.GState) (node : Node) (g : Grade),
        node ≠ [] → Grading.readyAt c s node.dropLast = true →
        s node.dropLast = some g → g = Grading.aggregatedAt c s node.dropLast →
        Grading.infer_grade_upwards c s node = ⟨s, [], [node.dropLast], none⟩) :=
  ⟨Grading.infer_notReady, Grading.infer_readyStored⟩

theorem claim_C4_witness :
    Grading.infer_grade_upwards Fixtures.ctxGAB Grading.initGrades ["g", "a"] =
      ⟨Grading.initGrades, [], [["g"]], none⟩ ∧
    Grading.infer_grade_upwards Fixtures.ctxABCD Fixtures.runBCA.state ["a"] =
      ⟨Fixtures.runBCA.state, [], [[]], none⟩ :=
  ⟨claim_C4_amended.1 Fixtures.ctxGAB Grading.initGrades ["g", "a"]
      (by decide) (by decide),
   claim_C4_amended.2 Fixtures.ctxABCD Fixtures.runBCA.state ["a"] ⟨"WA", 1⟩
      (by decide) (by decide) (by decide) (by decide)⟩

namespace Fixtures

/-- Raw testdata settings putting `accept_if_any_accepted` into the root's
grader flags. -/
def anyAcceptedSettings : Node → Option Dict :=
  fun n => if n = [] then some [("grader_flags", "accept_if_any_accepted")] else none

/-- A tree with the testcases `sample/1` and `secret/x` and
`accept_if_any_accepted` in the root's grader flags. -/
def treeC2 : Grading.TestDataTree := ⟨[["sample", "1"], ["secret", "x"]], anyAcceptedSettings⟩

/-- A raw override map with an entry for the leaf `g/a` itself. -/
def leafOverride : Node → Option Dict :=
  fun n => if n = ["g", "a"] then some [("grader_flags", "leafflag")] else none

/-- A tree with the single testcase `g/a` and an override keyed by that leaf. -/
def treeC5 : Grading.TestDataTree := ⟨[["g", "a"]], leafOverride⟩

end Fixtures

/-- C2: with a root expectation of `AC` and `accept_if_any_accepted` among the
root's effective grader flags, `Grades._infer_expectations` of `grading.py`
STILL forces every descendant's verdict set to `{AC}` (its test
`'accept_if_any_accepted' not in flags or 'always_accept' not in flags` only
suppresses inheritance when BOTH flags are present, contradicting its own
docstring "the grader flag is neither accept_if_any_accepted nor
always_accept"), while `Expectations.__getitem__` of `expectations.py`
correctly leaves the descendants' sets at all four verdicts. -/
theorem claim_C2_divergence :
    (Grading.grades_init_expectations Fixtures.treeC2 (some (.verdictStr "AC")) 3).toOption.map
        (fun e => (e ["secret", "x"], e ["secret"], e []))
      = some ({"AC"}, {"AC"}, {"AC"}) ∧
    (Expc.expectationsInit 3 (some (.verdictStr "AC")) none none
        Fixtures.anyAcceptedSettings).toOption.map
        (fun st => ((Expc.verdictsQ st ["secret", "x"]).toOption,
                    (Expc.verdictsQ st ["secret"]).toOption))
      = some (some allVerdicts, some allVerdicts) ∧
    substrOf "accept_if_any_accepted"
        (sget (Fixtures.treeC2.settingsAt []) "grader_flags") = true := by
  refine ⟨by decide, by decide, by decide⟩

/-- C5, counterexample: the claim's resolver (defaults layered through the
path's own override, total on all paths) disagrees with the code: for the
leaf `g/a` carrying its own override, `get_settings` returns the parent's
settings with the override ignored (grader_flags "" instead of "leafflag");
for a path outside the hierarchy the lookup fails instead of yielding the
default chain; and the expectations-module resolver starts from two-key
defaults, so its resolved root has no `on_reject` at all. -/
theorem claim_C5_counterexample :
    (Fixtures.treeC5.get_settings ["g", "a"]).map (fun d => dget d "grader_flags")
      = some (some "") ∧
    dget (Grading.specResolve Grading.defaults Fixtures.leafOverride ["g", "a"])
        "grader_flags" = some "leafflag" ∧
    Fixtures.treeC5.get_settings ["zz"] = none ∧
    dget (Expc.testdata_settings (fun _ => none) []) "on_reject" = none := by
  refine ⟨by decide, by decide, by decide, by decide⟩

/-- C5, amended: the per-node settings chain of `grading.py` equals the spec's
layered resolution (five hard-coded defaults, then the overrides from the
root down to the node); a LEAF receives its parent's chain (its own override
entry is ignored), a non-leaf hierarchy node (internal or root) receives its
own chain, and a path outside the hierarchy fails (`KeyError`) instead of
receiving the default chain.  The `expectations.py` resolver never fails and
resolves every path by the same layering, but over the two-key defaults
(grader_flags, range) only. -/
theorem claim_C5_amended :
    (∀ (t : Grading.TestDataTree) (p : Node),
        t.settingsAt p = Grading.specResolve Grading.defaults t.rawSettings p) ∧
    (∀ (t : Grading.TestDataTree) (n : Node), n ∈ t.leaves →
        t.get_settings n =
          some (Grading.specResolve Grading.defaults t.rawSettings n.dropLast)) ∧
    (∀ (t : Grading.TestDataTree) (p : Node),
        (p = [] ∨ p ∈ t.internalNodes) → p ∉ t.leaves →
        t.get_settings p =
          some (Grading.specResolve Grading.defaults t.rawSettings p)) ∧
    (∀ (t : Grading.TestDataTree) (p : Node),
        p ∉ t.leaves → p ≠ [] → p ∉ t.internalNodes →
        t.get_settings p = none) ∧
    (∀ (td : Node → Option Dict) (p : Node),
        Expc.testdata_settings td p = Grading.specResolve Expc.expDefaults td p) := by
  refine ⟨Grading.settingsAt_eq_specResolve, ?_, ?_, ?_,
    Expc.testdata_settings_eq_specResolve⟩
  · intro t n hn
    have hcond : n.dropLast = [] ∨ n.dropLast ∈ t.internalNodes := by
      cases hne : n with
      | nil => left; rfl
      | cons a as =>
        right
        rw [← hne]
        refine Grading.mem_ancestorsOf.mpr ⟨n, hn, List.dropLast_prefix n, ?_⟩
        intro he
        have hl : n.dropLast.length = n.length := by rw [he]
        rw [List.length_dropLast, hne] at hl
        simp at hl
    unfold Grading.TestDataTree.get_settings
    rw [if_pos hn, if_pos hcond, Grading.settingsAt_eq_specResolve]
  · intro t p hcond hnl
    unfold Grading.TestDataTree.get_settings
    rw [if_neg hnl, if_pos hcond, Grading.settingsAt_eq_specResolve]
  · intro t p hnl hne hni
    unfold Grading.TestDataTree.get_settings
    rw [if_neg hnl, if_neg (by rintro (h | h) <;> [exact hne h; exact hni h])]

theorem claim_C5_witness :
    (["g", "a"] : Node) ∈ Fixtures.treeC5.leaves ∧
    Fixtures.treeC5.get_settings ["g", "a"] =
      some (Grading.specResolve Grading.defaults Fixtures.leafOverride ["g"]) ∧
    Fixtures.treeC5.get_settings ["g"] =
      some (Grading.specResolve Grading.defaults Fixtures.leafOverride ["g"]) ∧
    Fixtures.treeC5.get_settings ["zz"] = none :=
  ⟨by decide,
   claim_C5_amended.2.1 Fixtures.treeC5 ["g", "a"] (by decide),
   claim_C5_amended.2.2.1 Fixtures.treeC5 ["g"] (by decide) (by decide),
   claim_C5_amended.2.2.2.1 Fixtures.treeC5 ["zz"] (by decide) (by decide) (by decide)⟩

/-- C7, counterexample: the directory name `accepted` and the legacy list
`['CORRECT']` both denote the root verdict set `{AC}` — two agreeing sources —
yet construction fails (`Don't set EXPECTED_RESULTS in directory`), contrary
to "agreeing sources never cause a failure". -/
theorem claim_C7_counterexample :
    Expc.dirnamemap "accepted" = some "AC" ∧
    Expc.domjudge_verdict_map "CORRECT" = some "AC" ∧
    (Expc.expectationsInit 1 none (some ["CORRECT"]) (some "accepted")
        (fun _ => none)).isOk = false := by
  refine ⟨by decide, by decide, by decide⟩

theorem except_bind_ok {α β : Type} (a : α) (f : α → Except String β) :
    (do let x ← (Except.ok a : Except String α); f x) = f a := rfl

/-- C7, amended: if both the directory name and the expected-results list
supply a root verdict, construction fails regardless of agreement; when a
single source — the directory name alone, or a recognized expected-results
list alone — supplies a value, it is adopted outright if the declarative tree
supplied no (nonempty) root set, construction succeeds keeping the tree's set
when the two sets are EQUAL (no intersection is taken), and fails on ANY
inequality — even one with a nonempty intersection; an expected-results list
with an unrecognized entry fails outright. -/
theorem claim_C7_amended :
    (∀ (m : Expc.AMap VSet) (d v0 : String) (rest : List String),
        (Expc.dirnamemap d).isSome →
        Expc.reconcileRoot m (some (v0 :: rest)) (some d) =
          .error "Don't set EXPECTED_RESULTS in directory") ∧
    (∀ (m : Expc.AMap VSet) (d v : String),
        Expc.dirnamemap d = some v → Expc.alookup m [] = none →
        Expc.reconcileRoot m none (some d) = .ok (Expc.ainsert m [] {v})) ∧
    (∀ (m : Expc.AMap VSet) (d v : String) (yv : VSet),
        Expc.dirnamemap d = some v → Expc.alookup m [] = some yv →
        yv ≠ ∅ → yv = {v} →
        Expc.reconcileRoot m none (some d) = .ok m) ∧
    (∀ (m : Expc.AMap VSet) (d v : String) (yv : VSet),
        Expc.dirnamemap d = some v → Expc.alookup m [] = some yv →
        yv ≠ ∅ → yv ≠ {v} →
        Expc.reconcileRoot m none (some d) =
          .error "Contradictory expectations for root") ∧
    (∀ (m : Expc.AMap VSet) (v0 : String) (rest : List String),
        ¬ ((v0 :: rest).all (fun v => (Expc.domjudge_verdict_map v).isSome) = true) →
        Expc.reconcileRoot m (some (v0 :: rest)) none =
          .error "Invalid expected results") ∧
    (∀ (m : Expc.AMap VSet) (v0 : String) (rest : List String),
        (v0 :: rest).all (fun v => (Expc.domjudge_verdict_map v).isSome) = true →
        Expc.alookup m [] = none →
        Expc.reconcileRoot m (some (v0 :: rest)) none =
          .ok (Expc.ainsert m []
            ((v0 :: rest).filterMap Expc.domjudge_verdict_map).toFinset)) ∧
    (∀ (m : Expc.AMap VSet) (v0 : String) (rest : List String) (yv : VSet),
        (v0 :: rest).all (fun v => (Expc.domjudge_verdict_map v).isSome) = true →
        Expc.alookup m [] = some yv → yv ≠ ∅ →
        yv = ((v0 :: rest).filterMap Expc.domjudge_verdict_map).toFinset →
        Expc.reconcileRoot m (some (v0 :: rest)) none = .ok m) ∧
    (∀ (m : Expc.AMap VSet) (v0 : String) (rest : List String) (yv : VSet),
        (v0 :: rest).all (fun v => (Expc.domjudge_verdict_map v).isSome) = true →
        Expc.alookup m [] = some yv → yv ≠ ∅ →
        yv ≠ ((v0 :: rest).filterMap Expc.domjudge_verdict_map).toFinset →
        Expc.reconcileRoot m (some (v0 :: rest)) none =
          .error "Contradictory expectations for root") := by
  refine ⟨?_, ?_, ?_, ?_, ?_, ?_, ?_, ?_⟩
  · intro m d v0 rest h
    unfold Expc.reconcileRoot
    cases hd : Expc.dirnamemap d with
    | none => rw [hd] at h; simp at h
    | some v => simp [hd]; rfl
  · intro m d v hd hm
    unfold Expc.reconcileRoot
    simp [hd, hm]
    rfl
  · intro m d v yv hd hm hne hev
    unfold Expc.reconcileRoot
    simp [hd, hm, hne, hev]
    rfl
  · intro m d v yv hd hm hne hev
    unfold Expc.reconcileRoot
    simp [hd, hm, hne, hev]
    rfl
  · intro m v0 rest hall
    unfold Expc.reconcileRoot
    simp [hall]
    rfl
  · intro m v0 rest hall hm
    unfold Expc.reconcileRoot
    simp [hall]
    rw [except_bind_ok]
    simp [hm]
  · intro m v0 rest yv hall hm hne hev
    unfold Expc.reconcileRoot
    simp [hall]
    rw [except_bind_ok]
    simp [hm, hne, hev]
    intro h0 _
    have hs := List.all_eq_true.mp hall v0 (List.mem_cons_self v0 rest)
    rw [h0] at hs
    simp at hs
  · intro m v0 rest yv hall hm hne hev
    unfold Expc.reconcileRoot
    simp [hall]
    rw [except_bind_ok]
    simp [hm, hne, hev]

theorem claim_C7_witness :
    Expc.reconcileRoot [] (some ["CORRECT"]) (some "accepted") =
      .error "Don't set EXPECTED_RESULTS in directory" ∧
    Expc.reconcileRoot [] none (some "accepted") =
      .ok (Expc.ainsert [] [] {"AC"}) ∧
    Expc.reconcileRoot [([], ({"AC"} : VSet))] none (some "accepted") =
      .ok [([], ({"AC"} : VSet))] ∧
    Expc.reconcileRoot [([], ({"AC", "WA"} : VSet))] none (some "accepted") =
      .error "Contradictory expectations for root" ∧
    Expc.reconcileRoot [] (some ["CORRECT", "bogus"]) none =
      .error "Invalid expected results" ∧
    Expc.reconcileRoot [] (some ["WRONG-ANSWER"]) none =
      .ok (Expc.ainsert [] [] (["WRONG-ANSWER"].filterMap
        Expc.domjudge_verdict_map).toFinset) ∧
    Expc.reconcileRoot [([], ({"WA"} : VSet))] (some ["WRONG-ANSWER"]) none =
      .ok [([], ({"WA"} : VSet))] ∧
    Expc.reconcileRoot [([], ({"AC"} : VSet))] (some ["WRONG-ANSWER"]) none =
      .error "Contradictory expectations for root" :=
  ⟨claim_C7_amended.1 [] "accepted" "CORRECT" [] (by decide),
   claim_C7_amended.2.1 [] "accepted" "AC" (by decide) (by decide),
   claim_C7_amended.2.2.1 [([], ({"AC"} : VSet))] "accepted" "AC" {"AC"}
     (by decide) (by decide) (by decide) (by decide),
   claim_C7_amended.2.2.2.1 [([], ({"AC", "WA"} : VSet))] "accepted" "AC" {"AC", "WA"}
     (by decide) (by decide) (by decide) (by decide),
   claim_C7_amended.2.2.2.2.1 [] "CORRECT" ["bogus"] (by decide),
   claim_C7_amended.2.2.2.2.2.1 [] "WRONG-ANSWER" [] (by decide) (by decide),
   claim_C7_amended.2.2.2.2.2.2.1 [([], ({"WA"} : VSet))] "WRONG-ANSWER" [] {"WA"}
     (by decide) (by decide) (by decide) (by decide),
   claim_C7_amended.2.2.2.2.2.2.2 [([], ({"AC"} : VSet))] "WRONG-ANSWER" [] {"AC"}
     (by decide) (by decide) (by decide) (by decide)⟩

/-- C8: the grade map starts all-None, and no assignment (successful,
rejected, or conflicting) ever changes an already-stored grade: whatever was
`some g` before a `set_grade` call — including all the upward re-derivations
it triggers — is still `some g` afterwards, so each entry transitions at most
once from None to a concrete grade. -/
theorem claim_C8_monotone :
    (∀ n, Grading.initGrades n = none) ∧
    (∀ (c : Grading.GradingCtx) (s : Grading.GState) (tc : Node)
        (gs : Grading.GradeSpec) (n : Node) (g : Grade),
        s n = some g → (Grading.set_grade c s tc gs).state n = some g) := by
  refine ⟨fun n => rfl, ?_⟩
  intro c s tc gs n g h
  unfold Grading.set_grade
  by_cases h1 : tc ∈ c.tree.leaves
  · rw [if_neg (by simpa using h1)]
    by_cases h2 : (s tc).isSome
    · rw [if_pos h2]; exact h
    · rw [if_neg h2]
      dsimp only
      apply Grading.inferAux_preserves
      have hn : n ≠ tc := by
        intro he
        rw [← he, h] at h2
        simp at h2
      simp only [if_neg hn]
      exact h
  · rw [if_pos (by simpa using h1)]
    exact h

theorem claim_C8_witness :
    Fixtures.runGA.state ["g", "a"] = some ⟨"AC", 1⟩ ∧
    (Grading.set_grade Fixtures.ctxGAB Fixtures.runGA.state ["g", "b"]
        (.verdictOnly "AC")).state ["g", "a"] = some ⟨"AC", 1⟩ :=
  ⟨by decide,
   claim_C8_monotone.2 Fixtures.ctxGAB Fixtures.runGA.state ["g", "b"]
     (.verdictOnly "AC") ["g", "a"] ⟨"AC", 1⟩ (by decide)⟩

namespace Grading

theorem isSome_of_accepted {s : GState} {n : Node} (h : is_accepted s n = true) :
    (s n).isSome = true := by
  unfold is_accepted at h
  cases hs : s n with
  | none => rw [hs] at h; exact absurd h (by simp)
  | some g => simp

theorem isSome_of_rejected {s : GState} {n : Node} (h : is_rejected s n = true) :
    (s n).isSome = true := by
  unfold is_rejected at h
  cases hs : s n with
  | none => rw [hs] at h; exact absurd h (by simp)
  | some g => simp

theorem accepted_of_graded_not_rejected {s : GState} {n : Node}
    (hg : (s n).isSome = true) (hr : is_rejected s n = false) :
    is_accepted s n = true := by
  unfold is_rejected at hr
  unfold is_accepted
  cases hs : s n with
  | none => rw [hs] at hg; simp at hg
  | some g => rw [hs] at hr; simpa using hr

theorem verdict_of_accepted {s : GState} {n : Node} {g : Grade}
    (hs : s n = some g) (ha : is_accepted s n = true) : g.verdict = "AC" := by
  unfold is_accepted at ha
  rw [hs] at ha
  simpa using ha

theorem verdict_of_rejected {s : GState} {n : Node} {g : Grade}
    (hs : s n = some g) (hr : is_rejected s n = true) : g.verdict ≠ "AC" := by
  unfold is_rejected at hr
  rw [hs] at hr
  simpa using hr

theorem orB_elim {a b : Bool} (h : (a || b) = true) : a = true ∨ b = true := by
  rcases a <;> rcases b <;> simp_all

theorem orB_intro {a b : Bool} (h : a = true ∨ b = true) : (a || b) = true := by
  rcases a <;> rcases b <;> simp_all

theorem andB_intro {a b : Bool} (h1 : a = true) (h2 : b = true) : (a && b) = true := by
  rw [h1, h2]; rfl

/-- Under the readiness test with `on_reject: break`, every child strictly
before the first rejected one is accepted. -/
theorem ready_prefix_accepted (c : GradingCtx) (s : GState) (parent : Node)
    (hready : readyAt c s parent = true) :
    ∀ sib ∈ (c.tree.children parent).take
        (firstErrorIdx s (c.tree.children parent)), is_accepted s sib = true := by
  rcases Grading.orB_elim hready with hall | hbr
  · rw [List.all_eq_true] at hall
    intro sib hsib
    have hmem : sib ∈ c.tree.children parent := List.mem_of_mem_take hsib
    refine accepted_of_graded_not_rejected (hall sib hmem) ?_
    cases hfi : firstIdxP (is_rejected s) (c.tree.children parent) with
    | none => exact firstIdxP_eq_none_iff.mp hfi sib hmem
    | some i =>
      obtain ⟨A, r, B, hdec, hAlen, hAnr, _⟩ := firstIdxP_eq_some hfi
      rw [firstErrorIdx, hfi, Option.getD_some, hdec, ← hAlen, List.take_left] at hsib
      exact hAnr sib hsib
  · rw [Bool.and_eq_true, List.all_eq_true] at hbr
    exact hbr.2

/-- Under the readiness test, every child up to AND INCLUDING the first
rejected one (all children, when none is rejected) is graded. -/
theorem ready_prefix_graded (c : GradingCtx) (s : GState) (parent : Node)
    (hready : readyAt c s parent = true) :
    ∀ sib ∈ (c.tree.children parent).take
        (firstErrorIdx s (c.tree.children parent) + 1), (s sib).isSome = true := by
  intro sib hsib
  cases hfi : firstIdxP (is_rejected s) (c.tree.children parent) with
  | none =>
    rcases Grading.orB_elim hready with hall | hbr
    · rw [List.all_eq_true] at hall
      exact hall sib (List.mem_of_mem_take hsib)
    · rw [Bool.and_eq_true, List.all_eq_true] at hbr
      have hmem : sib ∈ c.tree.children parent := List.mem_of_mem_take hsib
      have : sib ∈ (c.tree.children parent).take
          (firstErrorIdx s (c.tree.children parent)) := by
        rw [firstErrorIdx, hfi, Option.getD_none, List.take_length]
        exact hmem
      exact isSome_of_accepted (hbr.2 sib this)
  | some i =>
    obtain ⟨A, r, B, hdec, hAlen, hAnr, hrrej⟩ := firstIdxP_eq_some hfi
    rw [firstErrorIdx, hfi, Option.getD_some, hdec, ← hAlen,
      take_length_succ_append] at hsib
    rcases List.mem_append.mp hsib with hA | hr
    · have hacc := ready_prefix_accepted c s parent hready
      rw [firstErrorIdx, hfi, Option.getD_some, hdec, ← hAlen, List.take_left] at hacc
      exact isSome_of_accepted (hacc sib hA)
    · rw [List.mem_singleton.mp hr]
      exact isSome_of_rejected hrrej

/-- The readiness test, phrased as the spec phrases it: every child graded,
or `on_reject: break` and every child up to and including the first rejected
one graded. -/
theorem readyAt_iff (c : GradingCtx) (s : GState) (parent : Node) :
    readyAt c s parent = true ↔
      ((∀ sib ∈ c.tree.children parent, (s sib).isSome = true) ∨
       (sget (c.tree.settingsAt parent) "on_reject" = "break" ∧
        ∀ sib ∈ (c.tree.children parent).take
            (firstErrorIdx s (c.tree.children parent) + 1),
          (s sib).isSome = true)) := by
  constructor
  · intro hready
    rcases Grading.orB_elim hready with hall | hbr
    · rw [List.all_eq_true] at hall
      exact Or.inl hall
    · rw [Bool.and_eq_true] at hbr
      refine Or.inr ⟨by simpa using hbr.1, ready_prefix_graded c s parent hready⟩
  · rintro (hall | ⟨hbrk, hgr⟩)
    · unfold readyAt
      refine Grading.orB_intro (Or.inl ?_)
      rw [List.all_eq_true]
      exact hall
    · unfold readyAt
      refine Grading.orB_intro (Or.inr (Grading.andB_intro (by simpa using hbrk) ?_))
      rw [List.all_eq_true]
      intro sib hsib
      have hgraded : (s sib).isSome = true :=
        hgr sib (mem_take_mono (by omega) hsib)
      refine accepted_of_graded_not_rejected hgraded ?_
      cases hfi : firstIdxP (is_rejected s) (c.tree.children parent) with
      | none =>
        exact firstIdxP_eq_none_iff.mp hfi sib (List.mem_of_mem_take hsib)
      | some i =>
        obtain ⟨A, r, B, hdec, hAlen, hAnr, _⟩ := firstIdxP_eq_some hfi
        rw [firstErrorIdx, hfi, Option.getD_some, hdec, ← hAlen, List.take_left] at hsib
        exact hAnr sib hsib

/-- Once ready with `on_reject: break`, the truncation inside `aggregate`
reduces the collected grades to exactly the graded prefix through the first
rejected child. -/
theorem ready_truncation (c : GradingCtx) (s : GState) (parent : Node)
    (hready : readyAt c s parent = true)
    (hbr : sget (c.tree.settingsAt parent) "on_reject" = "break") :
    truncateOnReject (c.tree.settingsAt parent)
        ((c.tree.children parent).filterMap s) =
      ((c.tree.children parent).take
        (firstErrorIdx s (c.tree.children parent) + 1)).filterMap s := by
  have hbeq : (sget (c.tree.settingsAt parent) "on_reject" == "break") = true := by
    simp [hbr]
  cases hfi : firstIdxP (is_rejected s) (c.tree.children parent) with
  | none =>
    have hnone : firstIdxP (fun g => g.verdict != "AC")
        ((c.tree.children parent).filterMap s) = none := by
      refine firstIdxP_eq_none_iff.mpr ?_
      intro g hg
      obtain ⟨sib, hsib, hssib⟩ := List.mem_filterMap.mp hg
      have hnr : is_rejected s sib = false := firstIdxP_eq_none_iff.mp hfi sib hsib
      unfold is_rejected at hnr
      rw [hssib] at hnr
      simpa using hnr
    rw [truncateOnReject, if_pos hbeq, hnone, firstErrorIdx, hfi, Option.getD_none,
      List.take_of_length_le (by omega)]
  | some i =>
    obtain ⟨A, r, B, hdec, hAlen, hAnr, hrrej⟩ := firstIdxP_eq_some hfi
    obtain ⟨gr, hgr⟩ := Option.isSome_iff_exists.mp (isSome_of_rejected hrrej)
    have hacc := ready_prefix_accepted c s parent hready
    rw [firstErrorIdx, hfi, Option.getD_some, hdec, ← hAlen, List.take_left] at hacc
    have hAac : ∀ g ∈ A.filterMap s, (g.verdict != "AC") = false := by
      intro g hg
      obtain ⟨sib, hsib, hssib⟩ := List.mem_filterMap.mp hg
      have := verdict_of_accepted hssib (hacc sib hsib)
      simpa using this
    have hfm : ((c.tree.children parent).filterMap s) =
        A.filterMap s ++ gr :: B.filterMap s := by
      rw [hdec, List.filterMap_append, List.filterMap_cons, hgr]
    have hgrne : (gr.verdict != "AC") = true := by
      have := verdict_of_rejected hgr hrrej
      simpa using this
    have hidx : firstIdxP (fun g => g.verdict != "AC")
        ((c.tree.children parent).filterMap s) = some (A.filterMap s).length := by
      rw [hfm]
      exact firstIdxP_append_cons _ _ _ _ hAac hgrne
    rw [truncateOnReject, if_pos hbeq, hidx]
    dsimp only
    rw [hfm, take_length_succ_append, firstErrorIdx, hfi, Option.getD_some, hdec,
      ← hAlen, take_length_succ_append, List.filterMap_append, List.filterMap_cons,
      hgr, List.filterMap_nil]

end Grading

/-- C1: (1) the readiness test of the upward walk holds exactly when every
sorted child is graded, or the node's effective `on_reject` is `break` and
every child up to and including the first rejected one (i.e. all those
strictly before `first_error_idx` together with the rejected child itself) is
graded; (2) when ready with `on_reject: break`, the list handed to the
external grader is exactly the prefix of child grades through the first
rejected child; (3) concretely, for a root with children `a b c d` graded in
the order b=WA, c=AC, a=AC, the root is ungraded until a, b, c are all graded
and then gets verdict WA, (4) whatever grade `d` later receives. -/
theorem claim_C1 :
    (∀ (c : Grading.GradingCtx) (s : Grading.GState) (parent : Node),
        Grading.readyAt c s parent = true ↔
          ((∀ sib ∈ c.tree.children parent, (s sib).isSome = true) ∨
           (sget (c.tree.settingsAt parent) "on_reject" = "break" ∧
            ∀ sib ∈ (c.tree.children parent).take
                (Grading.firstErrorIdx s (c.tree.children parent) + 1),
              (s sib).isSome = true))) ∧
    (∀ (c : Grading.GradingCtx) (s : Grading.GState) (parent : Node),
        Grading.readyAt c s parent = true →
        sget (c.tree.settingsAt parent) "on_reject" = "break" →
        Grading.truncateOnReject (c.tree.settingsAt parent)
            ((c.tree.children parent).filterMap s) =
          ((c.tree.children parent).take
            (Grading.firstErrorIdx s (c.tree.children parent) + 1)).filterMap s ∧
        ((c.tree.children parent).filterMap s ≠ [] →
          Grading.aggregatedAt c s parent =
            c.grader
              (((c.tree.children parent).take
                (Grading.firstErrorIdx s (c.tree.children parent) + 1)).filterMap s)
              (sget (c.tree.settingsAt parent) "grader_flags"))) ∧
    (Fixtures.runB.state [] = none ∧ Fixtures.runBC.state [] = none ∧
     Fixtures.runBCA.state [] = some ⟨"WA", 1⟩ ∧ Fixtures.runBCA.err = none) ∧
    (∀ g : Grade,
        (Grading.set_grade Fixtures.ctxABCD Fixtures.runBCA.state ["d"]
            (.full g)).state [] = some ⟨"WA", 1⟩ ∧
        (Grading.set_grade Fixtures.ctxABCD Fixtures.runBCA.state ["d"]
            (.full g)).err = none) := by
  refine ⟨Grading.readyAt_iff, ?_, ⟨rfl, rfl, rfl, rfl⟩, fun g => ⟨rfl, rfl⟩⟩
  intro c s parent hready hbr
  refine ⟨Grading.ready_truncation c s parent hready hbr, ?_⟩
  intro hne
  unfold Grading.aggregatedAt Grading.aggregate
  rw [if_neg hne, Grading.ready_truncation c s parent hready hbr]

theorem claim_C1_witness :
    (Grading.readyAt Fixtures.ctxABCD Fixtures.runBCA.state [] = true ↔
      ((∀ sib ∈ Fixtures.ctxABCD.tree.children [],
          (Fixtures.runBCA.state sib).isSome = true) ∨
       (sget (Fixtures.ctxABCD.tree.settingsAt []) "on_reject" = "break" ∧
        ∀ sib ∈ (Fixtures.ctxABCD.tree.children []).take
            (Grading.firstErrorIdx Fixtures.runBCA.state
              (Fixtures.ctxABCD.tree.children []) + 1),
          (Fixtures.runBCA.state sib).isSome = true))) ∧
    Grading.truncateOnReject (Fixtures.ctxABCD.tree.settingsAt [])
        ((Fixtures.ctxABCD.tree.children []).filterMap Fixtures.runBCA.state) =
      ((Fixtures.ctxABCD.tree.children []).take
        (Grading.firstErrorIdx Fixtures.runBCA.state
          (Fixtures.ctxABCD.tree.children []) + 1)).filterMap Fixtures.runBCA.state ∧
    (Grading.set_grade Fixtures.ctxABCD Fixtures.runBCA.state ["d"]
        (.full ⟨"TLE", 5⟩)).state [] = some ⟨"WA", 1⟩ :=
  ⟨claim_C1.1 Fixtures.ctxABCD Fixtures.runBCA.state [],
   (claim_C1.2.1 Fixtures.ctxABCD Fixtures.runBCA.state [] (by decide) (by decide)).1,
   (claim_C1.2.2.2 ⟨"TLE", 5⟩).1⟩

namespace Grading

/-- The grade a node ends with once every leaf has been assigned: leaves get
their assigned grade, internal nodes the `aggregate` of their children's
final grades (`fuel` bounds the tree depth). -/
def refGrade (c : GradingCtx) (lf : Node → Grade) : Nat → Node → Grade
  | 0, _ => ⟨"", 0⟩
  | fuel + 1, n =>
    if n ∈ c.tree.leaves then lf n
    else aggregate c.grader n ((c.tree.children n).map (refGrade c lf fuel))
      (c.tree.settingsAt n)

/-- A `Grades` context over the given testcases with no explicit testdata
settings (everything defaults) and the modelled default grader. -/
def defaultCtx (L : List Node) : GradingCtx :=
  ⟨⟨L, fun _ => none⟩, default_grader⟩

/-- The leaf grade `set_grade` derives from a bare verdict under default
settings: `accept_score` 1 for AC, `reject_score` 0 otherwise. -/
def refLeaf (f : Node → String) (tc : Node) : Grade :=
  ⟨f tc, if f tc == "AC" then 1 else 0⟩

/-- Assign every leaf its verdict, one `set_grade` at a time, in leaf order. -/
def runAll (c : GradingCtx) (f : Node → String) : GState :=
  c.tree.leaves.foldl
    (fun s tc => (set_grade c s tc (.verdictOnly (f tc))).state) initGrades

/-- Does the subtree below `n` contain a rejected leaf? -/
def subtreeRejected (t : TestDataTree) (f : Node → String) (n : Node) : Bool :=
  t.leaves.any (fun l => n.isPrefixOf l && f l != "AC")

/-- One more than the longest testcase path: a strict bound on the length of
every node of the tree. -/
def depthBound (L : List Node) : Nat := (L.map List.length).foldl Nat.max 0 + 1

theorem foldl_max_le : ∀ (l : List Nat) (a : Nat),
    a ≤ l.foldl Nat.max a ∧ ∀ x ∈ l, x ≤ l.foldl Nat.max a := by
  intro l
  induction l with
  | nil => intro a; exact ⟨Nat.le_refl a, by simp⟩
  | cons y ys ih =>
    intro a
    obtain ⟨h1, h2⟩ := ih (Nat.max a y)
    refine ⟨Nat.le_trans (Nat.le_max_left a y) h1, ?_⟩
    intro x hx
    rcases List.mem_cons.mp hx with rfl | hx'
    · exact Nat.le_trans (Nat.le_max_right a x) h1
    · exact h2 x hx'

theorem length_lt_depthBound {L : List Node} {n : Node}
    (hn : n ∈ (defaultCtx L).tree.nodes) : n.length < depthBound L := by
  have hle : ∀ p ∈ L, p.length ≤ (L.map List.length).foldl Nat.max 0 := by
    intro p hp
    exact (foldl_max_le (L.map List.length) 0).2 p.length
      (List.mem_map.mpr ⟨p, hp, rfl⟩)
  rcases mem_nodes_iff.mp hn with hl | hi
  · have : n ∈ L := List.mem_dedup.mp hl
    have := hle n this
    unfold depthBound
    omega
  · obtain ⟨p, hp, hpre, hne⟩ := mem_ancestorsOf.mp hi
    have hp' : p ∈ L := List.mem_dedup.mp hp
    have h1 : n.length ≤ p.length := hpre.length_le
    have := hle p hp'
    unfold depthBound
    omega

theorem defaultCtx_settingsAtAux (L : List Node) :
    ∀ (fuel : Nat) (p : Node), (defaultCtx L).tree.settingsAtAux fuel p = defaults := by
  intro fuel
  induction fuel with
  | zero => intro p; simp [TestDataTree.settingsAtAux, defaultCtx, dunion]
  | succ fuel ih =>
    intro p
    unfold TestDataTree.settingsAtAux
    by_cases hp : p = []
    · simp [hp, defaultCtx, dunion]
    · rw [if_neg hp]
      show dunion ((defaultCtx L).tree.settingsAtAux fuel p.dropLast)
        (((defaultCtx L).tree.rawSettings p).getD []) = defaults
      rw [ih p.dropLast]
      rfl

theorem defaultCtx_settings (L : List Node) (p : Node) :
    (defaultCtx L).tree.settingsAt p = defaults :=
  defaultCtx_settingsAtAux L p.length p

theorem children_length {t : TestDataTree} {p n : Node} (h : n ∈ t.children p) :
    n.length = p.length + 1 := by
  obtain ⟨hn, hne, hdl⟩ := mem_children_iff.mp h
  have := List.length_dropLast n
  rw [hdl] at this
  cases n with
  | nil => exact absurd rfl hne
  | cons a as => simp at this ⊢; omega

theorem children_mem_nodes {t : TestDataTree} {p n : Node} (h : n ∈ t.children p) :
    n ∈ t.nodes := (mem_children_iff.mp h).1

theorem proper_prefix_mem_internal {t : TestDataTree} {m n : Node}
    (hm : m ∈ t.nodes) (hpre : n <+: m) (hne : n ≠ m) : n ∈ t.internalNodes := by
  rcases mem_nodes_iff.mp hm with hl | hi
  · exact mem_ancestorsOf.mpr ⟨m, hl, hpre, hne⟩
  · obtain ⟨l, hlmem, hlpre, hlne⟩ := mem_ancestorsOf.mp hi
    refine mem_ancestorsOf.mpr ⟨l, hlmem, hpre.trans hlpre, ?_⟩
    intro he
    have h1 : n.length ≤ m.length := hpre.length_le
    have h2 : m.length ≤ l.length := hlpre.length_le
    have h3 : m.length ≠ l.length := by
      intro hx
      exact hlne (List.IsPrefix.eq_of_length hlpre hx)
    rw [he] at h1
    omega

/-- Every node of a child list extends its parent by one component. -/
theorem parent_prefix_child {t : TestDataTree} {p n : Node} (h : n ∈ t.children p) :
    p <+: n := by
  obtain ⟨hn, hne, hdl⟩ := mem_children_iff.mp h
  rw [← hdl]
  exact List.dropLast_prefix n

/-- A leaf strictly below an internal node lies below one of its children. -/
theorem child_step {t : TestDataTree} {n l : Node} (hl : l ∈ t.leaves)
    (hpre : n <+: l) (hne : n ≠ l) :
    ∃ ch ∈ t.children n, ch <+: l := by
  obtain ⟨r, hr⟩ := hpre
  cases r with
  | nil => rw [List.append_nil] at hr; exact absurd hr hne
  | cons h0 rt =>
    refine ⟨n ++ [h0], ?_, ⟨rt, by simp [← hr]⟩⟩
    refine mem_children_iff.mpr ⟨?_, by simp, List.dropLast_concat⟩
    have hchpre : n ++ [h0] <+: l := ⟨rt, by simp [← hr]⟩
    by_cases hcheq : n ++ [h0] = l
    · rw [hcheq]
      exact mem_nodes_iff.mpr (Or.inl hl)
    · exact mem_nodes_iff.mpr (Or.inr
        (mem_ancestorsOf.mpr ⟨l, hl, hchpre, hcheq⟩))

theorem children_ne_nil {t : TestDataTree} {p : Node} (h : p ∈ t.internalNodes) :
    t.children p ≠ [] := by
  obtain ⟨l, hl, hpre, hne⟩ := mem_ancestorsOf.mp h
  obtain ⟨ch, hch, _⟩ := child_step hl hpre hne
  intro he
  rw [he] at hch
  exact List.not_mem_nil ch hch

end Grading


namespace Grading

theorem foldl_worseOf_binary (X : String) (hX : 0 < badness X) :
    ∀ (gs : List Grade) (acc : String), (acc = "AC" ∨ acc = X) →
      (∀ g ∈ gs, g.verdict = "AC" ∨ g.verdict = X) →
      gs.foldl (fun w g => worseOf w g.verdict) acc =
        (if acc = X ∨ (gs.any (fun g => g.verdict == X)) = true then X else "AC") := by
  have hXne : X ≠ "AC" := by
    intro he; rw [he] at hX; simp [badness] at hX
  intro gs
  induction gs with
  | nil =>
    intro acc hacc _
    rcases hacc with rfl | rfl
    · rw [List.foldl_nil, if_neg]
      rintro (h | h)
      · exact hXne h.symm
      · simp at h
    · rw [List.foldl_nil, if_pos (Or.inl rfl)]
  | cons g gs ih =>
    intro acc hacc hall
    have hg := hall g (List.mem_cons_self g gs)
    have hstep : worseOf acc g.verdict = (if acc = X ∨ g.verdict = X then X else "AC") := by
      rcases hacc with rfl | rfl <;> rcases hg with hgv | hgv
      · rw [if_neg (by rintro (h | h); exacts [hXne h.symm, hXne (hgv ▸ h).symm])]
        unfold worseOf
        rw [hgv, if_neg (Nat.lt_irrefl _)]
      · rw [if_pos (Or.inr hgv)]
        unfold worseOf
        have h0 : badness "AC" < badness X := hX
        rw [hgv, if_pos h0]
      · rw [if_pos (Or.inl rfl)]
        unfold worseOf
        rw [hgv]
        rw [if_neg (by simp [badness])]
      · rw [if_pos (Or.inl rfl)]
        unfold worseOf
        rw [hgv, if_neg (Nat.lt_irrefl _)]
    have hnewmem : (if acc = X ∨ g.verdict = X then X else "AC") = "AC" ∨
        (if acc = X ∨ g.verdict = X then X else "AC") = X := by
      by_cases hc : acc = X ∨ g.verdict = X
      · rw [if_pos hc]; exact Or.inr rfl
      · rw [if_neg hc]; exact Or.inl rfl
    rw [List.foldl_cons, hstep,
      ih _ hnewmem (fun x hx => hall x (List.mem_cons_of_mem _ hx))]
    have hcond : ((if acc = X ∨ g.verdict = X then X else "AC") = X ∨
          (gs.any (fun g => g.verdict == X)) = true) ↔
        (acc = X ∨ ((g :: gs).any (fun g => g.verdict == X)) = true) := by
      rw [List.any_cons]
      constructor
      · rintro (hifx | hany)
        · by_cases hc : acc = X ∨ g.verdict = X
          · rcases hc with hc | hc
            · exact Or.inl hc
            · exact Or.inr (by simp [hc])
          · rw [if_neg hc] at hifx
            exact absurd hifx.symm hXne
        · exact Or.inr (by simp only [Bool.or_eq_true]; exact Or.inr hany)
      · rintro (haccx | hany)
        · exact Or.inl (by rw [if_pos (Or.inl haccx)])
        · rcases orB_elim hany with hgx | hany'
          · refine Or.inl (by rw [if_pos (Or.inr (by simpa using hgx))])
          · exact Or.inr hany'
    by_cases hfin : acc = X ∨ ((g :: gs).any (fun g => g.verdict == X)) = true
    · rw [if_pos (hcond.mpr hfin), if_pos hfin]
    · rw [if_neg (fun hx => hfin (hcond.mp hx)), if_neg hfin]

theorem worstVerdict_binary (X : String) (hX : 0 < badness X) (gs : List Grade)
    (hall : ∀ g ∈ gs, g.verdict = "AC" ∨ g.verdict = X) :
    worstVerdict gs = (if (gs.any (fun g => g.verdict == X)) = true then X else "AC") := by
  have hXne : X ≠ "AC" := by
    intro he; rw [he] at hX; simp [badness] at hX
  rw [worstVerdict, foldl_worseOf_binary X hX gs "AC" (Or.inl rfl) hall]
  by_cases h : (gs.any (fun g => g.verdict == X)) = true
  · rw [if_pos (Or.inr h), if_pos h]
  · rw [if_neg (by rintro (hx | hx); exacts [hXne hx.symm, h hx]), if_neg h]

theorem truncate_of_allAC (settings : Dict) (hbr : sget settings "on_reject" = "break")
    (gs : List Grade) (hA : ∀ g ∈ gs, g.verdict = "AC") :
    truncateOnReject settings gs = gs := by
  have hnone : firstIdxP (fun g => g.verdict != "AC") gs = none :=
    firstIdxP_eq_none_iff.mpr (fun g hg => by simp [hA g hg])
  rw [truncateOnReject, if_pos (by simp [hbr]), hnone]

theorem truncate_of_decomp (settings : Dict) (hbr : sget settings "on_reject" = "break")
    (gsA : List Grade) (gx : Grade) (gsB : List Grade)
    (hA : ∀ g ∈ gsA, g.verdict = "AC") (hx : gx.verdict ≠ "AC") :
    truncateOnReject settings (gsA ++ gx :: gsB) = gsA ++ [gx] := by
  have hidx : firstIdxP (fun g => g.verdict != "AC") (gsA ++ gx :: gsB) =
      some gsA.length :=
    firstIdxP_append_cons _ _ _ _ (fun g hg => by simp [hA g hg]) (by simp [hx])
  rw [truncateOnReject, if_pos (by simp [hbr]), hidx]
  exact take_length_succ_append _ _ _

theorem refGrade_congr (c : GradingCtx) (lf : Node → Grade) (D : Nat)
    (hD : ∀ n ∈ c.tree.nodes, n.length < D) :
    ∀ (b b' : Nat) (n : Node), n.length < D →
      D - n.length ≤ b → D - n.length ≤ b' →
      refGrade c lf b n = refGrade c lf b' n := by
  intro b
  induction b with
  | zero => intro b' n hn hb _; omega
  | succ b ih =>
    intro b' n hn hb hb'
    cases b' with
    | zero => omega
    | succ b' =>
      unfold refGrade
      by_cases hleaf : n ∈ c.tree.leaves
      · rw [if_pos hleaf, if_pos hleaf]
      · rw [if_neg hleaf, if_neg hleaf]
        congr 1
        apply List.map_congr_left
        intro ch hch
        have hchlen : ch.length = n.length + 1 := children_length hch
        have hchD : ch.length < D := hD ch (children_mem_nodes hch)
        exact ih b' ch hchD (by omega) (by omega)

end Grading

namespace Grading

theorem ready_agg_eq_ref (c : GradingCtx) (lf : Node → Grade) (D : Nat)
    (hD : ∀ n ∈ c.tree.nodes, n.length < D)
    (hbreak : ∀ p, sget (c.tree.settingsAt p) "on_reject" = "break")
    (hdisj : ∀ n ∈ c.tree.leaves, n ∉ c.tree.internalNodes) :
    ∀ (p : Node) (s : GState), p ∈ c.tree.internalNodes →
      (∀ n g, s n = some g → n ∈ c.tree.nodes ∧ g = refGrade c lf D n) →
      readyAt c s p = true →
      aggregatedAt c s p = refGrade c lf D p := by
  intro p s hp hinv hready
  have hpD : p.length < D := hD p (mem_nodes_iff.mpr (Or.inr hp))
  have hpleaf : p ∉ c.tree.leaves := fun hl => hdisj p hl hp
  obtain ⟨d, rfl⟩ : ∃ d, D = d + 1 := ⟨D - 1, by omega⟩
  have hmapcongr : (c.tree.children p).map (refGrade c lf d) =
      (c.tree.children p).map (refGrade c lf (d + 1)) := by
    apply List.map_congr_left
    intro ch hch
    have h1 : ch.length = p.length + 1 := children_length hch
    have h2 : ch.length < d + 1 := hD ch (children_mem_nodes hch)
    exact refGrade_congr c lf (d + 1) hD d (d + 1) ch h2 (by omega) (by omega)
  have hrefp : refGrade c lf (d + 1) p =
      aggregate c.grader p ((c.tree.children p).map (refGrade c lf (d + 1)))
        (c.tree.settingsAt p) := by
    rw [refGrade, if_neg hpleaf, hmapcongr]
  rw [hrefp]
  have hstored : ∀ ch ∈ c.tree.children p, (s ch).isSome = true →
      s ch = some (refGrade c lf (d + 1) ch) := by
    intro ch _ hch
    obtain ⟨g, hg⟩ := Option.isSome_iff_exists.mp hch
    obtain ⟨_, hval⟩ := hinv ch g hg
    rw [hg, hval]
  cases hfi : firstIdxP (is_rejected s) (c.tree.children p) with
  | none =>
    have hgr : ∀ ch ∈ c.tree.children p, (s ch).isSome = true := by
      rcases orB_elim hready with hall | hbr
      · rw [List.all_eq_true] at hall
        exact hall
      · rw [Bool.and_eq_true, List.all_eq_true] at hbr
        intro ch hch
        refine isSome_of_accepted (hbr.2 ch ?_)
        rw [firstErrorIdx, hfi, Option.getD_none, List.take_length]
        exact hch
    have hfm : (c.tree.children p).filterMap s =
        (c.tree.children p).map (refGrade c lf (d + 1)) :=
      filterMap_eq_map_of_some (fun ch hch => hstored ch hch (hgr ch hch))
    rw [aggregatedAt, hfm]
  | some i =>
    obtain ⟨A, r, B, hdec, hAlen, hAnr, hrrej⟩ := firstIdxP_eq_some hfi
    have hacc := ready_prefix_accepted c s p hready
    rw [firstErrorIdx, hfi, Option.getD_some, hdec, ← hAlen, List.take_left] at hacc
    have hAmem : ∀ a ∈ A, a ∈ c.tree.children p := by
      intro a ha; rw [hdec]; exact List.mem_append.mpr (Or.inl ha)
    have hrmem : r ∈ c.tree.children p := by
      rw [hdec]; exact List.mem_append.mpr (Or.inr (List.mem_cons_self r B))
    have hAst : ∀ a ∈ A, s a = some (refGrade c lf (d + 1) a) := by
      intro a ha
      exact hstored a (hAmem a ha) (isSome_of_accepted (hacc a ha))
    have hrst : s r = some (refGrade c lf (d + 1) r) :=
      hstored r hrmem (isSome_of_rejected hrrej)
    have hAver : ∀ g ∈ A.map (refGrade c lf (d + 1)), g.verdict = "AC" := by
      intro g hg
      obtain ⟨a, ha, rfl⟩ := List.mem_map.mp hg
      exact verdict_of_accepted (hAst a ha) (hacc a ha)
    have hrver : (refGrade c lf (d + 1) r).verdict ≠ "AC" :=
      verdict_of_rejected hrst hrrej
    have hfmA : A.filterMap s = A.map (refGrade c lf (d + 1)) :=
      filterMap_eq_map_of_some hAst
    have hfm : (c.tree.children p).filterMap s =
        A.map (refGrade c lf (d + 1)) ++ refGrade c lf (d + 1) r :: B.filterMap s := by
      rw [hdec, List.filterMap_append, List.filterMap_cons, hrst, hfmA]
    have hmap : (c.tree.children p).map (refGrade c lf (d + 1)) =
        A.map (refGrade c lf (d + 1)) ++ refGrade c lf (d + 1) r ::
          B.map (refGrade c lf (d + 1)) := by
      rw [hdec, List.map_append, List.map_cons]
    rw [aggregatedAt, hfm, hmap, aggregate, aggregate,
      if_neg (by simp), if_neg (by simp),
      truncate_of_decomp _ (hbreak p) _ _ _ hAver hrver,
      truncate_of_decomp _ (hbreak p) _ _ _ hAver hrver]

end Grading

namespace Grading

theorem walk_ok (c : GradingCtx) (lf : Node → Grade) (D : Nat)
    (hD : ∀ n ∈ c.tree.nodes, n.length < D)
    (hbreak : ∀ p, sget (c.tree.settingsAt p) "on_reject" = "break")
    (hdisj : ∀ n ∈ c.tree.leaves, n ∉ c.tree.internalNodes) :
    ∀ (fuel : Nat) (m : Node) (s : GState), fuel = m.length →
      m ∈ c.tree.nodes → (s m).isSome = true →
      (∀ n g, s n = some g → n ∈ c.tree.nodes ∧ g = refGrade c lf D n) →
      (∀ n, n ∈ c.tree.internalNodes →
        (∀ ch ∈ c.tree.children n, (s ch).isSome = true) →
        ((s n).isSome = true ∨ n = m.dropLast)) →
      (inferAux c fuel s m).err = none ∧
      (∀ n g, (inferAux c fuel s m).state n = some g →
        n ∈ c.tree.nodes ∧ g = refGrade c lf D n) ∧
      (∀ n, n ∈ c.tree.internalNodes →
        (∀ ch ∈ c.tree.children n, ((inferAux c fuel s m).state ch).isSome = true) →
        ((inferAux c fuel s m).state n).isSome = true) := by
  intro fuel
  induction fuel with
  | zero =>
    intro m s hfm hm hsm hinv hinv2
    have hm0 : m = [] := List.eq_nil_of_length_eq_zero hfm.symm
    subst hm0
    refine ⟨rfl, hinv, ?_⟩
    intro n hn hkids
    rcases hinv2 n hn hkids with h | h
    · exact h
    · rw [h]; exact hsm
  | succ fuel ih =>
    intro m s hfm hm hsm hinv hinv2
    have hmne : m ≠ [] := by
      intro he; subst he; simp at hfm
    have hlm : m.length ≠ 0 := by
      simpa using fun h0 => hmne (List.eq_nil_of_length_eq_zero h0)
    rw [inferAux_succ, if_neg hmne]
    have hppre : m.dropLast <+: m := List.dropLast_prefix m
    have hpne : m.dropLast ≠ m := by
      intro he
      have hl := List.length_dropLast m
      rw [he] at hl
      omega
    have hpint : m.dropLast ∈ c.tree.internalNodes :=
      proper_prefix_mem_internal hm hppre hpne
    have hpnodes : m.dropLast ∈ c.tree.nodes := mem_nodes_iff.mpr (Or.inr hpint)
    have hplen : fuel = m.dropLast.length := by
      rw [List.length_dropLast]
      omega
    by_cases hready : readyAt c s m.dropLast
    · rw [if_pos hready]
      have hagg : aggregatedAt c s m.dropLast = refGrade c lf D m.dropLast :=
        ready_agg_eq_ref c lf D hD hbreak hdisj m.dropLast s hpint hinv hready
      cases hsp : s m.dropLast with
      | some g =>
        dsimp only
        obtain ⟨_, hgval⟩ := hinv m.dropLast g hsp
        have hge : g = aggregatedAt c s m.dropLast := by rw [hgval, ← hagg]
        rw [if_neg (not_not_intro hge)]
        refine ⟨rfl, hinv, ?_⟩
        intro n hn hkids
        rcases hinv2 n hn hkids with h | h
        · exact h
        · rw [h]
          show (s m.dropLast).isSome = true
          rw [hsp]; rfl
      | none =>
        dsimp only
        set s2 : GState :=
          fun x => if x = m.dropLast then some (aggregatedAt c s m.dropLast) else s x
          with hs2
        have hs2p : s2 m.dropLast = some (aggregatedAt c s m.dropLast) := by
          rw [hs2]; simp
        have hs2ne : ∀ x, x ≠ m.dropLast → s2 x = s x := by
          intro x hx
          rw [hs2]
          simp only [if_neg hx]
        have hinvB : ∀ n g, s2 n = some g →
            n ∈ c.tree.nodes ∧ g = refGrade c lf D n := by
          intro n g hg
          by_cases hnp : n = m.dropLast
          · subst hnp
            rw [hs2p] at hg
            have := Option.some.inj hg
            exact ⟨hpnodes, by rw [← this, hagg]⟩
          · rw [hs2ne n hnp] at hg
            exact hinv n g hg
        have hinv2B : ∀ n, n ∈ c.tree.internalNodes →
            (∀ ch ∈ c.tree.children n, (s2 ch).isSome = true) →
            ((s2 n).isSome = true ∨ n = m.dropLast.dropLast) := by
          intro n hn hkids
          by_cases hnp : n = m.dropLast
          · subst hnp
            left
            rw [hs2p]; rfl
          · by_cases hnp2 : n = m.dropLast.dropLast
            · exact Or.inr hnp2
            · left
              have hkids' : ∀ ch ∈ c.tree.children n, (s ch).isSome = true := by
                intro ch hch
                have hchp : ch ≠ m.dropLast := by
                  intro he
                  subst he
                  exact hnp2 (mem_children_iff.mp hch).2.2.symm
                have := hkids ch hch
                rw [hs2ne ch hchp] at this
                exact this
              rcases hinv2 n hn hkids' with h | h
              · rw [hs2ne n hnp]
                exact h
              · exact absurd h hnp
        obtain ⟨herr, hI1, hI2⟩ := ih m.dropLast s2 hplen hpnodes
          (by rw [hs2p]; rfl) hinvB hinv2B
        exact ⟨herr, hI1, hI2⟩
    · rw [if_neg hready]
      refine ⟨rfl, hinv, ?_⟩
      intro n hn hkids
      rcases hinv2 n hn hkids with h | h
      · exact h
      · exfalso
        subst h
        apply hready
        unfold readyAt
        apply orB_intro
        left
        rw [List.all_eq_true]
        exact fun sib hsib => hkids sib hsib

end Grading

namespace Grading

theorem get_settings_leaf {t : TestDataTree} {n : Node} (hn : n ∈ t.leaves) :
    t.get_settings n = some (t.settingsAt n.dropLast) := by
  have hcond : n.dropLast = [] ∨ n.dropLast ∈ t.internalNodes := by
    cases hne : n with
    | nil => left; rfl
    | cons a as =>
      right
      rw [← hne]
      refine mem_ancestorsOf.mpr ⟨n, hn, List.dropLast_prefix n, ?_⟩
      intro he
      have hl : n.dropLast.length = n.length := by rw [he]
      rw [List.length_dropLast, hne] at hl
      simp at hl
  unfold TestDataTree.get_settings
  rw [if_pos hn, if_pos hcond]

theorem set_grade_fresh_default (L : List Node) (s : GState) (tc : Node) (v : String)
    (h1 : tc ∈ (defaultCtx L).tree.leaves) (h2 : s tc = none) :
    (set_grade (defaultCtx L) s tc (.verdictOnly v)).state =
      (inferAux (defaultCtx L) tc.length
        (fun n => if n = tc then some ⟨v, if v == "AC" then 1 else 0⟩ else s n)
        tc).state := by
  unfold set_grade
  rw [if_neg (by simpa using h1), if_neg (by simp [h2])]
  have hset : ((defaultCtx L).tree.get_settings tc).getD [] = defaults := by
    rw [get_settings_leaf h1, Option.getD_some, defaultCtx_settings]
  have hscore : parseScore (sget (((defaultCtx L).tree.get_settings tc).getD [])
      (if v == "AC" then "accept_score" else "reject_score")) =
      (if v == "AC" then 1 else 0) := by
    rw [hset]
    by_cases hv : v == "AC"
    · rw [if_pos hv, if_pos hv]; rfl
    · rw [if_neg hv, if_neg hv]; rfl
  dsimp only
  rw [hscore]
  rfl

/-- One assignment step of `runAll`. -/
def stepAssign (c : GradingCtx) (f : Node → String) (s : GState) (tc : Node) : GState :=
  (set_grade c s tc (.verdictOnly (f tc))).state

theorem runAll_eq (c : GradingCtx) (f : Node → String) :
    runAll c f = c.tree.leaves.foldl (stepAssign c f) initGrades := rfl

theorem refGrade_leaf {c : GradingCtx} {lf : Node → Grade} {D : Nat} {n : Node}
    (hD : 0 < D) (hn : n ∈ c.tree.leaves) : refGrade c lf D n = lf n := by
  obtain ⟨d, rfl⟩ : ∃ d, D = d + 1 := ⟨D - 1, by omega⟩
  rw [refGrade, if_pos hn]

theorem runAll_fold (L : List Node) (f : Node → String) (D : Nat)
    (hD : ∀ n ∈ (defaultCtx L).tree.nodes, n.length < D)
    (hdisj : ∀ n ∈ (defaultCtx L).tree.leaves,
      n ∉ (defaultCtx L).tree.internalNodes) :
    ∀ (ls : List Node) (s : GState),
      (∀ tc ∈ ls, tc ∈ (defaultCtx L).tree.leaves) →
      (∀ tc ∈ ls, s tc = none) →
      ls.Nodup →
      (∀ n g, s n = some g → n ∈ (defaultCtx L).tree.nodes ∧
        g = refGrade (defaultCtx L) (refLeaf f) D n) →
      (∀ n, n ∈ (defaultCtx L).tree.internalNodes →
        (∀ ch ∈ (defaultCtx L).tree.children n, (s ch).isSome = true) →
        (s n).isSome = true) →
      (∀ n g, s n = some g →
        (ls.foldl (stepAssign (defaultCtx L) f) s) n = some g) ∧
      (∀ n g, (ls.foldl (stepAssign (defaultCtx L) f) s) n = some g →
        n ∈ (defaultCtx L).tree.nodes ∧
        g = refGrade (defaultCtx L) (refLeaf f) D n) ∧
      (∀ n, n ∈ (defaultCtx L).tree.internalNodes →
        (∀ ch ∈ (defaultCtx L).tree.children n,
          ((ls.foldl (stepAssign (defaultCtx L) f) s) ch).isSome = true) →
        ((ls.foldl (stepAssign (defaultCtx L) f) s) n).isSome = true) ∧
      (∀ tc ∈ ls, ((ls.foldl (stepAssign (defaultCtx L) f) s) tc).isSome = true) := by
  have hbreak : ∀ p, sget ((defaultCtx L).tree.settingsAt p) "on_reject" = "break" := by
    intro p; rw [defaultCtx_settings]; rfl
  intro ls
  induction ls with
  | nil =>
    intro s _ _ _ hinv hinv2
    exact ⟨fun n g h => h, hinv, hinv2, by simp⟩
  | cons tc rest ih =>
    intro s hleaf hnone hnodup hinv hinv2
    have htcl : tc ∈ (defaultCtx L).tree.leaves := hleaf tc (List.mem_cons_self tc rest)
    have htcnone : s tc = none := hnone tc (List.mem_cons_self tc rest)
    have htcnodes : tc ∈ (defaultCtx L).tree.nodes := mem_nodes_iff.mpr (Or.inl htcl)
    have htcD : tc.length < D := hD tc htcnodes
    set s2 : GState :=
      fun n => if n = tc then some ⟨f tc, if f tc == "AC" then 1 else 0⟩ else s n
      with hs2def
    have hs1 : stepAssign (defaultCtx L) f s tc =
        (inferAux (defaultCtx L) tc.length s2 tc).state :=
      set_grade_fresh_default L s tc (f tc) htcl htcnone
    have hs2tc : s2 tc = some ⟨f tc, if f tc == "AC" then 1 else 0⟩ := by
      rw [hs2def]; simp
    have hs2ne : ∀ x, x ≠ tc → s2 x = s x := by
      intro x hx; rw [hs2def]; simp only [if_neg hx]
    have hinvB : ∀ n g, s2 n = some g → n ∈ (defaultCtx L).tree.nodes ∧
        g = refGrade (defaultCtx L) (refLeaf f) D n := by
      intro n g hg
      by_cases hnp : n = tc
      · subst hnp
        rw [hs2tc] at hg
        refine ⟨htcnodes, ?_⟩
        rw [refGrade_leaf (by omega) htcl, refLeaf, ← Option.some.inj hg]
      · rw [hs2ne n hnp] at hg
        exact hinv n g hg
    have hinv2B : ∀ n, n ∈ (defaultCtx L).tree.internalNodes →
        (∀ ch ∈ (defaultCtx L).tree.children n, (s2 ch).isSome = true) →
        ((s2 n).isSome = true ∨ n = tc.dropLast) := by
      intro n hn hkids
      by_cases hnp2 : n = tc.dropLast
      · exact Or.inr hnp2
      · left
        have hntc : n ≠ tc := by
          intro he; subst he; exact hdisj n htcl hn
        rw [hs2ne n hntc]
        refine hinv2 n hn ?_
        intro ch hch
        have hchtc : ch ≠ tc := by
          intro he; subst he
          exact hnp2 (mem_children_iff.mp hch).2.2.symm
        have := hkids ch hch
        rw [hs2ne ch hchtc] at this
        exact this
    obtain ⟨_, hI1, hI2⟩ := walk_ok (defaultCtx L) (refLeaf f) D hD hbreak hdisj
      tc.length tc s2 rfl htcnodes (by rw [hs2tc]; rfl) hinvB hinv2B
    have hrestnone : ∀ x ∈ rest, (stepAssign (defaultCtx L) f s tc) x = none := by
      intro x hx
      have hxtc : x ≠ tc := by
        intro he; subst he
        exact (List.nodup_cons.mp hnodup).1 hx
      have hxleaf : x ∈ (defaultCtx L).tree.leaves := hleaf x (List.mem_cons_of_mem _ hx)
      have hxs2 : s2 x = none := by
        rw [hs2ne x hxtc]
        exact hnone x (List.mem_cons_of_mem _ hx)
      rw [hs1]
      by_cases hch : (inferAux (defaultCtx L) tc.length s2 tc).state x = s2 x
      · rw [hch]; exact hxs2
      · exfalso
        obtain ⟨hpre, hne⟩ := inferAux_changes (defaultCtx L) tc.length s2 tc x hch
        exact hdisj x hxleaf (proper_prefix_mem_internal htcnodes hpre hne)
    have hstep1 := ih (stepAssign (defaultCtx L) f s tc)
      (fun x hx => hleaf x (List.mem_cons_of_mem _ hx))
      hrestnone
      (List.nodup_cons.mp hnodup).2
      (by rw [hs1]; exact hI1)
      (by rw [hs1]; exact hI2)
    obtain ⟨hP, hQ1, hQ2, hQ3⟩ := hstep1
    rw [List.foldl_cons]
    refine ⟨?_, hQ1, hQ2, ?_⟩
    · intro n g hg
      have hntc : n ≠ tc := by
        intro he; subst he; rw [htcnone] at hg; exact Option.noConfusion hg
      refine hP n g ?_
      rw [hs1]
      exact inferAux_preserves (defaultCtx L) tc.length s2 tc n g
        (by rw [hs2ne n hntc]; exact hg)
    · intro x hx
      rcases List.mem_cons.mp hx with rfl | hx'
      · have hs1tc : (stepAssign (defaultCtx L) f s x) x =
            some ⟨f x, if f x == "AC" then 1 else 0⟩ := by
          rw [hs1]
          exact inferAux_preserves (defaultCtx L) x.length s2 x x _ hs2tc
        have hfin := hP x _ hs1tc
        rw [hfin]; rfl
      · exact hQ3 x hx'

end Grading

namespace Grading

theorem boolEq_of_iff {a b : Bool} (h : a = true ↔ b = true) : a = b := by
  rcases a <;> rcases b <;> simp_all

theorem runAll_final (L : List Node) (f : Node → String)
    (hdisj : ∀ n ∈ (defaultCtx L).tree.leaves,
      n ∉ (defaultCtx L).tree.internalNodes) :
    ∀ n ∈ (defaultCtx L).tree.nodes,
      runAll (defaultCtx L) f n =
        some (refGrade (defaultCtx L) (refLeaf f) (depthBound L) n) := by
  have hD : ∀ n ∈ (defaultCtx L).tree.nodes, n.length < depthBound L :=
    fun n hn => length_lt_depthBound hn
  have hinit2 : ∀ n, n ∈ (defaultCtx L).tree.internalNodes →
      (∀ ch ∈ (defaultCtx L).tree.children n, (initGrades ch).isSome = true) →
      (initGrades n).isSome = true := by
    intro n hn hkids
    exfalso
    have hne := children_ne_nil hn
    cases hch : (defaultCtx L).tree.children n with
    | nil => exact hne hch
    | cons ch rest =>
      have := hkids ch (by rw [hch]; exact List.mem_cons_self ch rest)
      simp [initGrades] at this
  obtain ⟨_, hI1, hI2, hleaves⟩ := runAll_fold L f (depthBound L) hD hdisj
    (defaultCtx L).tree.leaves initGrades
    (fun tc h => h) (fun tc _ => rfl) (List.nodup_dedup L)
    (fun n g h => Option.noConfusion h) hinit2
  have hgraded : ∀ (k : Nat) (n : Node), n ∈ (defaultCtx L).tree.nodes →
      depthBound L - n.length ≤ k →
      (((defaultCtx L).tree.leaves.foldl (stepAssign (defaultCtx L) f)
        initGrades) n).isSome = true := by
    intro k
    induction k with
    | zero =>
      intro n hn hk
      have := hD n hn
      omega
    | succ k ihk =>
      intro n hn hk
      rcases mem_nodes_iff.mp hn with hl | hi
      · exact hleaves n hl
      · refine hI2 n hi ?_
        intro ch hch
        have h1 := children_length hch
        exact ihk ch (children_mem_nodes hch) (by omega)
  intro n hn
  have hs := hgraded (depthBound L - n.length) n hn (Nat.le_refl _)
  obtain ⟨g, hg⟩ := Option.isSome_iff_exists.mp hs
  obtain ⟨_, hval⟩ := hI1 n g hg
  rw [runAll_eq, hg, hval]

end Grading

namespace Grading

theorem leaves_prefix_eq {t : TestDataTree} {n l : Node}
    (hdisj : ∀ x ∈ t.leaves, x ∉ t.internalNodes)
    (hn : n ∈ t.leaves) (hl : l ∈ t.leaves) (hpre : n <+: l) : n = l := by
  by_contra hne
  exact hdisj n hn (mem_ancestorsOf.mpr ⟨l, hl, hpre, hne⟩)

theorem subtreeRejected_leaf {t : TestDataTree} {f : Node → String} {n : Node}
    (hdisj : ∀ x ∈ t.leaves, x ∉ t.internalNodes) (hn : n ∈ t.leaves) :
    subtreeRejected t f n = (f n != "AC") := by
  apply boolEq_of_iff
  unfold subtreeRejected
  rw [List.any_eq_true]
  constructor
  · rintro ⟨l, hl, hcond⟩
    rw [Bool.and_eq_true] at hcond
    have hpre : n <+: l := List.isPrefixOf_iff_prefix.mp hcond.1
    rw [leaves_prefix_eq hdisj hn hl hpre]
    exact hcond.2
  · intro hr
    refine ⟨n, hn, ?_⟩
    rw [Bool.and_eq_true]
    exact ⟨List.isPrefixOf_iff_prefix.mpr (List.prefix_refl n), hr⟩

theorem subtree_step {t : TestDataTree} {f : Node → String} {n : Node}
    (hdisj : ∀ x ∈ t.leaves, x ∉ t.internalNodes) (hn : n ∈ t.internalNodes) :
    subtreeRejected t f n = (t.children n).any (fun ch => subtreeRejected t f ch) := by
  apply boolEq_of_iff
  unfold subtreeRejected
  rw [List.any_eq_true, List.any_eq_true]
  constructor
  · rintro ⟨l, hl, hcond⟩
    rw [Bool.and_eq_true] at hcond
    have hpre : n <+: l := List.isPrefixOf_iff_prefix.mp hcond.1
    have hne : n ≠ l := by
      intro he; subst he; exact hdisj n hl hn
    obtain ⟨ch, hch, hchpre⟩ := child_step hl hpre hne
    refine ⟨ch, hch, ?_⟩
    rw [List.any_eq_true]
    refine ⟨l, hl, ?_⟩
    rw [Bool.and_eq_true]
    exact ⟨List.isPrefixOf_iff_prefix.mpr hchpre, hcond.2⟩
  · rintro ⟨ch, hch, hsub⟩
    rw [List.any_eq_true] at hsub
    obtain ⟨l, hl, hcond⟩ := hsub
    rw [Bool.and_eq_true] at hcond
    refine ⟨l, hl, ?_⟩
    rw [Bool.and_eq_true]
    refine ⟨?_, hcond.2⟩
    refine List.isPrefixOf_iff_prefix.mpr
      ((parent_prefix_child hch).trans (List.isPrefixOf_iff_prefix.mp hcond.1))

theorem refGrade_verdict_char (L : List Node) (f : Node → String) (X : String)
    (hXb : 0 < badness X)
    (hdisj : ∀ n ∈ (defaultCtx L).tree.leaves,
      n ∉ (defaultCtx L).tree.internalNodes)
    (hf : ∀ l ∈ (defaultCtx L).tree.leaves, f l = "AC" ∨ f l = X) :
    ∀ (k : Nat) (n : Node), n ∈ (defaultCtx L).tree.nodes →
      depthBound L - n.length ≤ k →
      (refGrade (defaultCtx L) (refLeaf f) (depthBound L) n).verdict =
        (if subtreeRejected (defaultCtx L).tree f n = true then X else "AC") := by
  have hXne : X ≠ "AC" := by
    intro he; rw [he] at hXb; simp [badness] at hXb
  have hD : ∀ n ∈ (defaultCtx L).tree.nodes, n.length < depthBound L :=
    fun n hn => length_lt_depthBound hn
  intro k
  induction k with
  | zero =>
    intro n hn hk
    have := hD n hn
    omega
  | succ k ihk =>
    intro n hn hk
    have hnD : n.length < depthBound L := hD n hn
    by_cases hleaf : n ∈ (defaultCtx L).tree.leaves
    · rw [refGrade_leaf (by omega) hleaf, subtreeRejected_leaf hdisj hleaf]
      have hlv : (refLeaf f n).verdict = f n := rfl
      rw [hlv]
      rcases hf n hleaf with hv | hv
      · rw [hv, if_neg (by simp)]
      · rw [hv, if_pos (by simp [hXne])]
    · obtain ⟨d, hd⟩ : ∃ d, depthBound L = d + 1 := ⟨depthBound L - 1, by omega⟩
      have hmapc : ((defaultCtx L).tree.children n).map
          (refGrade (defaultCtx L) (refLeaf f) d) =
          ((defaultCtx L).tree.children n).map
          (refGrade (defaultCtx L) (refLeaf f) (depthBound L)) := by
        apply List.map_congr_left
        intro ch hch
        have h1 : ch.length = n.length + 1 := children_length hch
        have h2 : ch.length < depthBound L := hD ch (children_mem_nodes hch)
        exact refGrade_congr (defaultCtx L) (refLeaf f) (depthBound L) hD d
          (depthBound L) ch h2 (by omega) (by omega)
      have hunfold : refGrade (defaultCtx L) (refLeaf f) (depthBound L) n =
          aggregate (defaultCtx L).grader n
            (((defaultCtx L).tree.children n).map
              (refGrade (defaultCtx L) (refLeaf f) (depthBound L)))
            ((defaultCtx L).tree.settingsAt n) := by
        conv_lhs => rw [hd]
        rw [refGrade, if_neg hleaf, hmapc]
      have hnint : n ∈ (defaultCtx L).tree.internalNodes := by
        rcases mem_nodes_iff.mp hn with h | h
        · exact absurd h hleaf
        · exact h
      have hchne : (defaultCtx L).tree.children n ≠ [] := children_ne_nil hnint
      have hmapne : ((defaultCtx L).tree.children n).map
          (refGrade (defaultCtx L) (refLeaf f) (depthBound L)) ≠ [] := by
        intro he
        exact hchne (List.map_eq_nil_iff.mp he)
      have hallbin : ∀ g ∈ ((defaultCtx L).tree.children n).map
          (refGrade (defaultCtx L) (refLeaf f) (depthBound L)),
          g.verdict = "AC" ∨ g.verdict = X := by
        intro g hg
        obtain ⟨ch, hch, rfl⟩ := List.mem_map.mp hg
        have h1 := children_length hch
        rw [ihk ch (children_mem_nodes hch) (by omega)]
        by_cases hs : subtreeRejected (defaultCtx L).tree f ch = true
        · rw [if_pos hs]; exact Or.inr rfl
        · rw [if_neg hs]; exact Or.inl rfl
      have hanyeq : (((defaultCtx L).tree.children n).map
            (refGrade (defaultCtx L) (refLeaf f) (depthBound L))).any
            (fun g => g.verdict == X) =
          ((defaultCtx L).tree.children n).any
            (fun ch => subtreeRejected (defaultCtx L).tree f ch) := by
        apply boolEq_of_iff
        rw [List.any_eq_true, List.any_eq_true]
        constructor
        · rintro ⟨g, hg, hgx⟩
          obtain ⟨ch, hch, rfl⟩ := List.mem_map.mp hg
          have h1 := children_length hch
          refine ⟨ch, hch, ?_⟩
          by_contra hs
          rw [ihk ch (children_mem_nodes hch) (by omega), if_neg hs] at hgx
          have hgx2 : "AC" = X := by simpa using hgx
          exact hXne hgx2.symm
        · rintro ⟨ch, hch, hs⟩
          have h1 := children_length hch
          refine ⟨refGrade (defaultCtx L) (refLeaf f) (depthBound L) ch,
            List.mem_map.mpr ⟨ch, hch, rfl⟩, ?_⟩
          rw [ihk ch (children_mem_nodes hch) (by omega), if_pos hs]
          simp
      rw [hunfold, aggregate, if_neg hmapne]
      have hgraderv : ∀ gs : List Grade,
          ((defaultCtx L).grader gs
            (sget ((defaultCtx L).tree.settingsAt n) "grader_flags")).verdict =
          worstVerdict gs := fun gs => rfl
      rw [hgraderv]
      have hbreak : sget ((defaultCtx L).tree.settingsAt n) "on_reject" = "break" := by
        rw [defaultCtx_settings]; rfl
      cases hfi : firstIdxP (fun g => g.verdict != "AC")
          (((defaultCtx L).tree.children n).map
            (refGrade (defaultCtx L) (refLeaf f) (depthBound L))) with
      | none =>
        have hallAC : ∀ g ∈ ((defaultCtx L).tree.children n).map
            (refGrade (defaultCtx L) (refLeaf f) (depthBound L)), g.verdict = "AC" := by
          intro g hg
          have := firstIdxP_eq_none_iff.mp hfi g hg
          simpa using this
        rw [truncate_of_allAC _ hbreak _ hallAC,
          worstVerdict_binary X hXb _ hallbin]
        have hanyfalse : (((defaultCtx L).tree.children n).map
            (refGrade (defaultCtx L) (refLeaf f) (depthBound L))).any
            (fun g => g.verdict == X) = false := by
          rw [Bool.eq_false_iff]
          intro hany
          rw [List.any_eq_true] at hany
          obtain ⟨g, hg, hgx⟩ := hany
          have hgX : g.verdict = X := by simpa using hgx
          exact hXne ((hallAC g hg).symm.trans hgX).symm
        rw [hanyfalse] at hanyeq
        rw [hanyfalse, if_neg (by simp), subtree_step hdisj hnint, ← hanyeq]
        rw [if_neg (by simp)]
      | some i =>
        obtain ⟨GA, gx, GB, hdec, hGAlen, hGAnr, hgxr⟩ := firstIdxP_eq_some hfi
        have hGAac : ∀ g ∈ GA, g.verdict = "AC" := by
          intro g hg
          have := hGAnr g hg
          simpa using this
        have hgxne : gx.verdict ≠ "AC" := by simpa using hgxr
        have hgxX : gx.verdict = X := by
          have : gx ∈ ((defaultCtx L).tree.children n).map
              (refGrade (defaultCtx L) (refLeaf f) (depthBound L)) := by
            rw [hdec]
            exact List.mem_append.mpr (Or.inr (List.mem_cons_self gx GB))
          rcases hallbin gx this with h | h
          · exact absurd h hgxne
          · exact h
        have hanytrue : (((defaultCtx L).tree.children n).map
            (refGrade (defaultCtx L) (refLeaf f) (depthBound L))).any
            (fun g => g.verdict == X) = true := by
          rw [List.any_eq_true]
          refine ⟨gx, ?_, ?_⟩
          · rw [hdec]
            exact List.mem_append.mpr (Or.inr (List.mem_cons_self gx GB))
          · simp [hgxX]
        have hsubbin : ∀ g ∈ GA ++ [gx], g.verdict = "AC" ∨ g.verdict = X := by
          intro g hg
          rcases List.mem_append.mp hg with h | h
          · exact Or.inl (hGAac g h)
          · rw [List.mem_singleton.mp h]
            exact Or.inr hgxX
        have hanyGA : ((GA ++ [gx]).any (fun g => g.verdict == X)) = true := by
          rw [List.any_eq_true]
          refine ⟨gx, ?_, ?_⟩
          · exact List.mem_append.mpr (Or.inr (List.mem_singleton.mpr rfl))
          · simp [hgxX]
        rw [hdec, truncate_of_decomp _ hbreak _ _ _ hGAac hgxne,
          worstVerdict_binary X hXb _ hsubbin, if_pos hanyGA]
        rw [hanytrue] at hanyeq
        rw [subtree_step hdisj hnint, ← hanyeq, if_pos rfl]

end Grading

namespace TG

/-- Built from the same testcase paths (and with `testgroups.py` carrying no
testdata settings at all), the two trees have the same child lists. -/
theorem children_eq (L : List Node) (p : Node) :
    children L p = (Grading.defaultCtx L).tree.children p := rfl

/-- `short_verdict` undoes `long_verdict` on the five verdicts. -/
theorem short_long_id (X : String)
    (hX : X = "AC" ∨ X = "WA" ∨ X = "TLE" ∨ X = "RTE" ∨ X = "JE") :
    short_verdict (long_verdict X) = X := by
  rcases hX with rfl | rfl | rfl | rfl | rfl <;> rfl

/-- The eager engine of `testgroups.py` on binary leaf verdicts (`AC` or one
fixed rejection `X`): a node's long verdict is `long_verdict X` iff its
subtree contains a rejected leaf, else `ACCEPTED`. -/
theorem tg_verdict_char (L : List Node) (f : Node → String) (X : String)
    (hXb : 0 < Grading.badness X)
    (hX5 : X = "WA" ∨ X = "TLE" ∨ X = "RTE" ∨ X = "JE")
    (hdisj : ∀ n ∈ (Grading.defaultCtx L).tree.leaves,
      n ∉ (Grading.defaultCtx L).tree.internalNodes)
    (hf : ∀ l ∈ (Grading.defaultCtx L).tree.leaves, f l = "AC" ∨ f l = X) :
    ∀ (k : Nat) (n : Node), n ∈ (Grading.defaultCtx L).tree.nodes →
      Grading.depthBound L - n.length ≤ k →
      ∀ b, Grading.depthBound L ≤ n.length + b →
      (grade_recursively L (leafGrades (fun l => long_verdict (f l))) b n).verdict =
        (if Grading.subtreeRejected (Grading.defaultCtx L).tree f n = true
          then long_verdict X else "ACCEPTED") := by
  have hXne : X ≠ "AC" := by
    intro he; rw [he] at hXb; simp [Grading.badness] at hXb
  have hD : ∀ n ∈ (Grading.defaultCtx L).tree.nodes,
      n.length < Grading.depthBound L :=
    fun n hn => Grading.length_lt_depthBound hn
  intro k
  induction k with
  | zero =>
    intro n hn hk _ _
    have := hD n hn
    omega
  | succ k ihk =>
    intro n hn hk b hb
    have hnD : n.length < Grading.depthBound L := hD n hn
    cases b with
    | zero => omega
    | succ b' =>
      by_cases hleaf : n ∈ (Grading.defaultCtx L).tree.leaves
      · have hleaf' : n ∈ L.dedup := hleaf
        rw [grade_recursively, if_pos hleaf']
        have hlv : (leafGrades (fun l => long_verdict (f l)) n).verdict =
            long_verdict (f n) := rfl
        rw [hlv, Grading.subtreeRejected_leaf hdisj hleaf]
        rcases hf n hleaf with hv | hv
        · rw [hv, if_neg (by simp)]
          rfl
        · rw [hv, if_pos (by simp [hXne])]
      · have hnint : n ∈ (Grading.defaultCtx L).tree.internalNodes := by
          rcases Grading.mem_nodes_iff.mp hn with h | h
          · exact absurd h hleaf
          · exact h
        have hleaf' : n ∉ L.dedup := hleaf
        rw [grade_recursively, if_neg hleaf']
        have hchne : children L n ≠ [] := Grading.children_ne_nil hnint
        have hmapne : (children L n).map
            (grade_recursively L (leafGrades (fun l => long_verdict (f l))) b') ≠ [] := by
          intro he
          exact hchne (List.map_eq_nil_iff.mp he)
        rw [aggregate, if_neg hmapne]
        have hcdg : (call_default_grader ((children L n).map
            (grade_recursively L (leafGrades (fun l => long_verdict (f l))) b'))).verdict =
            long_verdict (Grading.worstVerdict (((children L n).map
              (grade_recursively L (leafGrades (fun l => long_verdict (f l))) b')).map
              (fun g => { verdict := short_verdict g.verdict, score := g.score }))) := rfl
        rw [hcdg]
        have hallbin : ∀ g ∈ (((children L n).map
            (grade_recursively L (leafGrades (fun l => long_verdict (f l))) b')).map
            (fun g => ({ verdict := short_verdict g.verdict, score := g.score } : Grade))),
            g.verdict = "AC" ∨ g.verdict = X := by
          intro g hg
          obtain ⟨g0, hg0, rfl⟩ := List.mem_map.mp hg
          obtain ⟨ch, hch, rfl⟩ := List.mem_map.mp hg0
          have hch' : ch ∈ (Grading.defaultCtx L).tree.children n := hch
          have h1 := Grading.children_length hch'
          show short_verdict
            (grade_recursively L (leafGrades (fun l => long_verdict (f l))) b' ch).verdict
            = "AC" ∨ _ = X
          rw [ihk ch (Grading.children_mem_nodes hch') (by omega) b' (by omega)]
          by_cases hs : Grading.subtreeRejected (Grading.defaultCtx L).tree f ch = true
          · rw [if_pos hs]
            refine Or.inr ?_
            exact short_long_id X (Or.inr hX5)
          · rw [if_neg hs]
            exact Or.inl rfl
        have hanyeq : ((((children L n).map
              (grade_recursively L (leafGrades (fun l => long_verdict (f l))) b')).map
              (fun g => ({ verdict := short_verdict g.verdict, score := g.score } : Grade))).any
              (fun g => g.verdict == X)) =
            ((Grading.defaultCtx L).tree.children n).any
              (fun ch => Grading.subtreeRejected (Grading.defaultCtx L).tree f ch) := by
          apply Grading.boolEq_of_iff
          rw [List.any_eq_true, List.any_eq_true]
          constructor
          · rintro ⟨g, hg, hgx⟩
            obtain ⟨g0, hg0, rfl⟩ := List.mem_map.mp hg
            obtain ⟨ch, hch, rfl⟩ := List.mem_map.mp hg0
            have hch' : ch ∈ (Grading.defaultCtx L).tree.children n := hch
            have h1 := Grading.children_length hch'
            refine ⟨ch, hch', ?_⟩
            by_contra hs
            have hgx2 : short_verdict
                (grade_recursively L (leafGrades (fun l => long_verdict (f l))) b' ch).verdict
                = X := by simpa using hgx
            rw [ihk ch (Grading.children_mem_nodes hch') (by omega) b' (by omega),
              if_neg hs] at hgx2
            exact hXne hgx2.symm
          · rintro ⟨ch, hch, hs⟩
            have hch2 : ch ∈ children L n := hch
            have h1 := Grading.children_length hch
            refine ⟨_, List.mem_map.mpr ⟨_, List.mem_map.mpr ⟨ch, hch2, rfl⟩, rfl⟩, ?_⟩
            show (short_verdict
              (grade_recursively L (leafGrades (fun l => long_verdict (f l))) b' ch).verdict
              == X) = true
            rw [ihk ch (Grading.children_mem_nodes hch) (by omega) b' (by omega), if_pos hs]
            simp [short_long_id X (Or.inr hX5)]
        rw [Grading.worstVerdict_binary X hXb _ hallbin, hanyeq,
          Grading.subtree_step hdisj hnint]
        by_cases hA : (((Grading.defaultCtx L).tree.children n).any
            (fun ch => Grading.subtreeRejected (Grading.defaultCtx L).tree f ch)) = true
        · rw [if_pos hA, if_pos hA]
        · rw [if_neg hA, if_neg hA]
          rfl

end TG

/-- C10, counterexample: with testcases `secret/1` (WA) and `secret/2` (RTE)
under all-default settings, the incremental engine of `grading.py` grades the
root `WA` (its `on_reject: break` truncates the sorted child grades at the
first rejection before aggregating) while the eager engine of `testgroups.py`
grades it `RUN_TIME_ERROR` (it aggregates every child grade), so the two root
verdicts differ even up to the long/short translation. -/
theorem claim_C10_counterexample :
    ¬ ((Grading.runAll (Grading.defaultCtx [["secret", "1"], ["secret", "2"]])
        (fun l => if l = ["secret", "1"] then "WA" else "RTE") []).map
          Grade.verdict =
      some (TG.short_verdict (TG.rootVerdict [["secret", "1"], ["secret", "2"]]
        (fun l => TG.long_verdict
          (if l = ["secret", "1"] then "WA" else "RTE"))
        (Grading.depthBound [["secret", "1"], ["secret", "2"]])))) := by
  decide

/-- C10, amended: under default settings the two engines compute the same
root verdict (up to the long/short translation) whenever every rejected leaf
carries the same verdict `X` — in particular whenever at most one leaf is
rejected, or all leaves are accepted; truncation then cannot change the
aggregate. The hypotheses ask for a nonempty testcase list with no testcase
at the root itself and no testcase equal to an internal node (so that the
paths form a well-formed tree). -/
theorem claim_C10_amended (L : List Node) (f : Node → String) (X : String)
    (hL : L ≠ [])
    (hnr : ∀ p ∈ L, p ≠ [])
    (hdisj : ∀ n ∈ (Grading.defaultCtx L).tree.leaves,
      n ∉ (Grading.defaultCtx L).tree.internalNodes)
    (hX5 : X = "WA" ∨ X = "TLE" ∨ X = "RTE" ∨ X = "JE")
    (hf : ∀ l ∈ (Grading.defaultCtx L).tree.leaves, f l = "AC" ∨ f l = X) :
    (Grading.runAll (Grading.defaultCtx L) f []).map Grade.verdict =
      some (TG.short_verdict (TG.rootVerdict L (fun l => TG.long_verdict (f l))
        (Grading.depthBound L))) := by
  have hXb : 0 < Grading.badness X := by
    rcases hX5 with rfl | rfl | rfl | rfl <;> decide
  obtain ⟨p, hp⟩ := List.exists_mem_of_ne_nil L hL
  have hproot : ([] : Node) ∈ (Grading.defaultCtx L).tree.internalNodes :=
    Grading.mem_ancestorsOf.mpr ⟨p, List.mem_dedup.mpr hp, List.nil_prefix,
      fun he => hnr p hp he.symm⟩
  have hroot : ([] : Node) ∈ (Grading.defaultCtx L).tree.nodes :=
    Grading.mem_nodes_iff.mpr (Or.inr hproot)
  rw [Grading.runAll_final L f hdisj [] hroot, Option.map_some']
  have h2 := Grading.refGrade_verdict_char L f X hXb hdisj hf
    (Grading.depthBound L) [] hroot (by simp)
  rw [h2]
  show _ = some (TG.short_verdict ((TG.grade_recursively L
    (TG.leafGrades (fun l => TG.long_verdict (f l))) (Grading.depthBound L) []).verdict))
  rw [TG.tg_verdict_char L f X hXb hX5 hdisj hf (Grading.depthBound L) [] hroot
    (by simp) (Grading.depthBound L) (by simp)]
  by_cases hA : Grading.subtreeRejected (Grading.defaultCtx L).tree f [] = true
  · rw [if_pos hA, if_pos hA, TG.short_long_id X (Or.inr hX5)]
  · rw [if_neg hA, if_neg hA]
    rfl

theorem claim_C10_witness :
    ([["secret", "1"], ["secret", "2"]] : List Node) ≠ [] ∧
    (∀ p ∈ ([["secret", "1"], ["secret", "2"]] : List Node), p ≠ []) ∧
    (Grading.runAll (Grading.defaultCtx [["secret", "1"], ["secret", "2"]])
        (fun _ => "WA") []).map Grade.verdict =
      some (TG.short_verdict (TG.rootVerdict [["secret", "1"], ["secret", "2"]]
        (fun _ => TG.long_verdict "WA")
        (Grading.depthBound [["secret", "1"], ["secret", "2"]]))) :=
  ⟨by decide, by decide,
    claim_C10_amended [["secret", "1"], ["secret", "2"]] (fun _ => "WA") "WA"
      (by decide) (by decide) (by decide) (by decide) (by decide)⟩
